import Mathlib

/-!
# A verification development for the systax/matid geometric periodicity engine

The engine classifies atomic structures (positions, species, cell, periodic
boundary flags) by dimensionality, discovers periodic regions, and labels
atoms as bulk / vacancy / substitution / interstitial / adsorbate / unknown.

The definitions below are a shallow embedding of the engine.  The engine's
implementation is not part of the source tree (only its regression-test
suite is), so every operation is modelled from the specification, staying
faithful to its wording.  Exact rational arithmetic replaces floating
point, and distances are compared through their squares so that every
comparison stays inside `ℚ`.
-/

namespace Systax

/-- 3-component rational vector: the position / translation type. -/
abbrev Vec3 : Type := ℚ × ℚ × ℚ

namespace Vec3

def vadd (u v : Vec3) : Vec3 := (u.1 + v.1, u.2.1 + v.2.1, u.2.2 + v.2.2)

def vsub (u v : Vec3) : Vec3 := (u.1 - v.1, u.2.1 - v.2.1, u.2.2 - v.2.2)

def vneg (u : Vec3) : Vec3 := (-u.1, -u.2.1, -u.2.2)

def smul (q : ℚ) (u : Vec3) : Vec3 := (q * u.1, q * u.2.1, q * u.2.2)

def dot (u v : Vec3) : ℚ := u.1 * v.1 + u.2.1 * v.2.1 + u.2.2 * v.2.2

/-- Squared Euclidean norm. -/
def normSq (u : Vec3) : ℚ := dot u u

/-- Squared Euclidean distance between two points. -/
def distSq (u v : Vec3) : ℚ := normSq (vsub u v)

def cross (u v : Vec3) : Vec3 :=
  (u.2.1 * v.2.2 - u.2.2 * v.2.1,
   u.2.2 * v.1 - u.1 * v.2.2,
   u.1 * v.2.1 - u.2.1 * v.1)

/-- Determinant of the 3×3 matrix with rows `u`, `v`, `w`. -/
def det3 (u v w : Vec3) : ℚ := dot u (cross v w)

end Vec3

open Vec3

/-- One atom of a structure: an integer species code and a position. -/
structure AtomRec where
  species : ℕ
  pos : Vec3
  deriving DecidableEq, Repr, Inhabited

/-- An atomic structure: ordered atoms, a 3×3 cell (rows are lattice
vectors) and three periodicity flags. -/
structure Structure where
  atoms : List AtomRec
  cell : Vec3 × Vec3 × Vec3
  pbc : Bool × Bool × Bool
  deriving DecidableEq, Repr, Inhabited

/-- Row `a` (0, 1 or 2) of a cell matrix. -/
def cellRow (cell : Vec3 × Vec3 × Vec3) (a : ℕ) : Vec3 :=
  match a with
  | 0 => cell.1
  | 1 => cell.2.1
  | _ => cell.2.2

/-- Periodicity flag of axis `a`. -/
def pbcGet (pbc : Bool × Bool × Bool) (a : ℕ) : Bool :=
  match a with
  | 0 => pbc.1
  | 1 => pbc.2.1
  | _ => pbc.2.2

/-! ## GeometryKernel: periodic displacement and distance primitives -/

/-- Modelled from the spec: the integer lattice factors searched by the
generalized minimum-image convention.  A periodic axis contributes factors
−1, 0, 1; a non-periodic axis only 0. -/
def factorRange (b : Bool) : List ℤ := if b then [-1, 0, 1] else [0]

/-- All searched factor triples, one integer factor per axis, enumerated in
a fixed lexicographic order. -/
def factorTriples (pbc : Bool × Bool × Bool) : List (ℤ × ℤ × ℤ) :=
  (factorRange pbc.1).flatMap fun k1 =>
    (factorRange pbc.2.1).flatMap fun k2 =>
      (factorRange pbc.2.2).map fun k3 => (k1, k2, k3)

/-- The lattice translation generated by a factor triple. -/
def shiftOf (cell : Vec3 × Vec3 × Vec3) (k : ℤ × ℤ × ℤ) : Vec3 :=
  vadd (smul (k.1 : ℚ) cell.1) (vadd (smul (k.2.1 : ℚ) cell.2.1) (smul (k.2.2 : ℚ) cell.2.2))

/-- Modelled from the spec: all lattice translations searched by the
generalized minimum-image convention. -/
def micShifts (cell : Vec3 × Vec3 × Vec3) (pbc : Bool × Bool × Bool) : List Vec3 :=
  (factorTriples pbc).map (shiftOf cell)

/-- First candidate of minimal squared norm, scanning left to right; a later
candidate replaces the current best only when strictly shorter. -/
def argminNormSq (best : Vec3) (cs : List Vec3) : Vec3 :=
  match cs with
  | [] => best
  | c :: rest => argminNormSq (if normSq c < normSq best then c else best) rest

/-- Full candidate list for the minimum image of a raw displacement `d`:
`d` translated by every searched lattice shift. -/
def micCands (cell : Vec3 × Vec3 × Vec3) (pbc : Bool × Bool × Bool) (d : Vec3) : List Vec3 :=
  (micShifts cell pbc).map (vadd d)

/-- Modelled from the spec: minimum-image reduction of one displacement —
among all candidates `d + shift`, the shortest equivalent vector is
returned (first one found at ties). -/
def micDisp (cell : Vec3 × Vec3 × Vec3) (pbc : Bool × Bool × Bool) (d : Vec3) : Vec3 :=
  argminNormSq d (micCands cell pbc d)

/-- Modelled from the spec: the displacement tensor of `systax.geometry.
get_displacement_tensor` — for every pair `(a ∈ A, b ∈ B)` the vector
`a − b` (orientation fixed by the regression tests), optionally reduced by
the generalized minimum-image convention. -/
def get_displacement_tensor (A B : List Vec3) (cell : Vec3 × Vec3 × Vec3)
    (pbc : Bool × Bool × Bool) (mic : Bool) : List (List Vec3) :=
  A.map fun a => B.map fun b =>
    let d := vsub a b
    if mic then micDisp cell pbc d else d

/-- Entry `(i, j)` of a tensor of vectors (zero vector out of range). -/
def tEntry (T : List (List Vec3)) (i j : ℕ) : Vec3 :=
  (T.getD i []).getD j (0, 0, 0)

/-- Modelled from the spec: the distance matrix is the Euclidean norm of the
displacement tensor; here each entry carries the squared distance, which
determines the distance uniquely. -/
def get_distance_matrix_sq (A B : List Vec3) (cell : Vec3 × Vec3 × Vec3)
    (pbc : Bool × Bool × Bool) (mic : Bool) : List (List ℚ) :=
  (get_displacement_tensor A B cell pbc mic).map fun row => row.map normSq

/-- Translate every position of a list by the same vector. -/
def translate (P : List Vec3) (t : Vec3) : List Vec3 := P.map fun p => vadd p t

/-! ## Bounded connectivity closure (single-linkage clustering) -/

/-- Fuel-bounded connectivity closure: starting from the atoms in `acc`,
repeatedly absorb every atom of `rest` adjacent to an already-absorbed
atom, preserving first-encountered order.  `fuel ≥ rest.length` reaches a
fixpoint. -/
def closure (adj : ℕ → ℕ → Bool) : ℕ → List ℕ → List ℕ → List ℕ
  | 0, acc, _ => acc
  | fuel + 1, acc, rest =>
    let newFound := rest.filter fun x => acc.any fun y => adj y x
    if newFound = [] then acc
    else closure adj fuel (acc ++ newFound) (rest.filter fun x => !acc.any fun y => adj y x)

/-- Modelled from the spec: connected components of a bonding-distance
graph, each component listed in first-encountered traversal order. -/
def componentsOf (adj : ℕ → ℕ → Bool) : ℕ → List ℕ → List (List ℕ)
  | 0, _ => []
  | _, [] => []
  | fuel + 1, x :: rest =>
    let comp := closure adj (x :: rest).length [x] rest
    comp :: componentsOf adj fuel (rest.filter fun y => !comp.contains y)

/-! ## Dimensionality estimator -/

/-- Modelled from the spec: an axis passes the connectivity test when, after
adding the immediate periodic image of every atom along that axis, every
image atom is linked back to the original cluster by single-linkage
clustering with the given (squared) merge threshold. -/
def axisImagesConnected (s : Structure) (thrSq : ℚ) (a : ℕ) : Bool :=
  let P := s.atoms.map (·.pos)
  let n := P.length
  let nodes := P ++ P.map fun p => vadd p (cellRow s.cell a)
  let adj := fun i j => decide (distSq (nodes.getD i (0, 0, 0)) (nodes.getD j (0, 0, 0)) ≤ thrSq)
  let res := closure adj nodes.length (List.range n) ((List.range n).map (n + ·))
  ((List.range n).map (n + ·)).all fun i => res.contains i

/-- Modelled from the spec: `systax.geometry.get_dimensionality` — the
number of axes that are periodic and pass the image-connectivity test
(axes failing it are vacuum directions). -/
def get_dimensionality (s : Structure) (thrSq : ℚ) : ℕ :=
  ((List.range 3).filter fun a => pbcGet s.pbc a && axisImagesConnected s thrSq a).length

/-! ## Classifier dispatch -/

/-- Final categories of the dimensionality-based dispatch. -/
inductive Classification where
  | atom
  | molecule
  | material1D
  | material2D
  | material3D
  deriving DecidableEq, Repr

/-- Fatal error kinds surfaced to the caller. -/
inductive ClassError where
  | inputTooLarge
  deriving DecidableEq, Repr

/-- Modelled from the spec: `Classifier.classify` — a size-limit check that
raises a reported error when the atom count exceeds the configured
maximum, followed by the dimensionality-based dispatch to a final
category (isolated atom, finite molecule, 1D/2D/3D material).  Expected
negative outcomes never raise. -/
def classify (maxAtoms : ℕ) (thrSq : ℚ) (s : Structure) : Except ClassError Classification :=
  if maxAtoms < s.atoms.length then .error .inputTooLarge
  else .ok
    (match get_dimensionality s thrSq, s.atoms.length with
      | 0, 1 => .atom
      | 0, _ => .molecule
      | 1, _ => .material1D
      | 2, _ => .material2D
      | _, _ => .material3D)

/-! ## PeriodicFinder: basis selection -/

/-- A candidate repeat vector with its periodicity metric (count of
consistent repeats observed along it). -/
structure Span where
  v : Vec3
  metric : ℕ
  deriving DecidableEq, Repr, Inhabited

/-- The vectors of a span index combination. -/
def spanVecs (spans : List Span) (c : List ℕ) : List Vec3 :=
  c.map fun i => (spans.getD i default).v

/-- Linear independence of one, two or three vectors, decided exactly. -/
def indepB : List Vec3 → Bool
  | [v] => decide (v ≠ ((0 : ℚ), (0 : ℚ), (0 : ℚ)))
  | [u, v] => decide (cross u v ≠ ((0 : ℚ), (0 : ℚ), (0 : ℚ)))
  | [u, v, w] => decide (det3 u v w ≠ 0)
  | _ => false

/-- Squared unsigned length / area / volume spanned by a candidate set. -/
def volSq : List Vec3 → ℚ
  | [v] => normSq v
  | [u, v] => normSq (cross u v)
  | [u, v, w] => det3 u v w * det3 u v w
  | _ => 0

/-- Cosine of the angle between two vectors. -/
noncomputable def cosAngle (u v : Vec3) : ℝ :=
  (dot u v : ℝ) / (Real.sqrt (normSq u : ℝ) * Real.sqrt (normSq v : ℝ))

/-- Squared deviation of the angle between two vectors from 90°: the angle
is `arccos` of the cosine, the right angle is `π/2`. -/
noncomputable def angleDevSq (u v : Vec3) : ℝ :=
  (Real.arccos (cosAngle u v) - Real.pi / 2) ^ 2

/-- Orthogonality measure of a candidate set: sum of the squared deviations
of all pairwise angles from 90°, smaller is more orthogonal. -/
noncomputable def orthoKey : List Vec3 → ℝ
  | [u, v] => angleDevSq u v
  | [u, v, w] => angleDevSq u v + angleDevSq u w + angleDevSq v w
  | _ => 0

/-- Selection key of a combination: total periodicity metric (to be
maximized), then squared volume, then the summed squared angular deviation
from 90° (both to be minimized). -/
noncomputable def keyOf (spans : List Span) (c : List ℕ) : ℕ × ℚ × ℝ :=
  ((c.map fun i => (spans.getD i default).metric).sum,
    volSq (spanVecs spans c), orthoKey (spanVecs spans c))

/-- Strictly better key: higher metric sum, or equal metric sum and smaller
volume, or additionally equal volume and strictly smaller summed angular
deviation. -/
def keyBetter (k1 k2 : ℕ × ℚ × ℝ) : Prop :=
  k2.1 < k1.1 ∨ (k1.1 = k2.1 ∧ (k1.2.1 < k2.2.1 ∨ (k1.2.1 = k2.2.1 ∧ k1.2.2 < k2.2.2)))

/-- At-least-as-good key: the non-strict companion of `keyBetter`. -/
def keyGE (k1 k2 : ℕ × ℚ × ℝ) : Prop :=
  k2.1 < k1.1 ∨ (k1.1 = k2.1 ∧ (k1.2.1 < k2.2.1 ∨ (k1.2.1 = k2.2.1 ∧ k1.2.2 ≤ k2.2.2)))

noncomputable instance (k1 k2 : ℕ × ℚ × ℝ) : Decidable (keyBetter k1 k2) := by
  unfold keyBetter; infer_instance

noncomputable instance (k1 k2 : ℕ × ℚ × ℝ) : Decidable (keyGE k1 k2) := by
  unfold keyGE; infer_instance

/-- All linearly-independent combinations of `nTarget` distinct span
indices, in the enumeration order of `List.sublistsLen`. -/
def basisCandidates (spans : List Span) (nTarget : ℕ) : List (List ℕ) :=
  (List.sublistsLen nTarget (List.range spans.length)).filter fun c =>
    indepB (spanVecs spans c)

/-- One selection step: a later candidate replaces the current best only
when its key is strictly better. -/
noncomputable def bestStep (spans : List Span) (b c : List ℕ) : List ℕ :=
  if keyBetter (keyOf spans c) (keyOf spans b) then c else b

/-- Modelled from the spec: `PeriodicFinder._find_best_basis` — among all
linearly-independent combinations of spans of the target dimensionality,
pick the one maximizing the total periodicity metric, breaking ties by
minimal spanned volume (area, length), then by the smallest sum of
squared deviations of the pairwise angles from 90°. -/
noncomputable def find_best_basis (spans : List Span) (nTarget : ℕ) : Option (List ℕ) :=
  match basisCandidates spans nTarget with
  | [] => none
  | c :: cs => some (cs.foldl (bestStep spans) c)

/-! ## RegionClassifier -/

/-- An ideal lattice point of a discovered region: the unit-cell site it
instantiates, the species the unit cell predicts there, and its position. -/
structure LatPoint where
  site : ℕ
  expSpecies : ℕ
  pos : Vec3
  deriving DecidableEq, Repr, Inhabited

/-- Input of the region classifier: the structure's atoms, the generated
ideal lattice points, the (squared) positional tolerance, the (squared)
bonding cutoff, the largest component size an adsorbate may have, the
Delaunay-decomposition containment query, and the chemical-similarity
test — the latter two are external queries of `GeometryKernel`, abstracted
as predicates. -/
structure RegionInput where
  atoms : List AtomRec
  points : List LatPoint
  tolSq : ℚ
  bondSq : ℚ
  sizeLimit : ℕ
  insideTest : Vec3 → Bool
  chemOK : List ℕ → Bool

def atomDefault : AtomRec := ⟨0, (0, 0, 0)⟩

/-- Index (counting from `i`) of the first atom satisfying `cond`. -/
def firstHitAux (cond : AtomRec → Bool) : List AtomRec → ℕ → Option ℕ
  | [], _ => none
  | a :: rest, i => if cond a then some i else firstHitAux cond rest (i + 1)

/-- The matching condition of region growing: the atom lies within the
(squared) positional tolerance of the queried position. -/
def hitCond (tolSq : ℚ) (p : Vec3) (a : AtomRec) : Bool := decide (distSq a.pos p ≤ tolSq)

/-- Modelled from the spec: region growing matches a generated lattice
point to the first structure atom within the positional tolerance. -/
def firstHit (atoms : List AtomRec) (tolSq : ℚ) (p : Vec3) : Option ℕ :=
  firstHitAux (hitCond tolSq p) atoms 0

/-- The atom claimed by a lattice point, if any. -/
def ptMatch (atoms : List AtomRec) (tolSq : ℚ) (pt : LatPoint) : Option ℕ :=
  firstHit atoms tolSq pt.pos

/-- One step of the majority vote: a later candidate replaces the current
winner only when it occurs strictly more often. -/
def modeStep (l : List ℕ) (best : Option ℕ) (x : ℕ) : Option ℕ :=
  match best with
  | none => some x
  | some b => if l.count b < l.count x then some x else best

/-- Majority vote over a list (first-encountered winner at ties). -/
def mode (l : List ℕ) : Option ℕ := l.foldl (modeStep l) none

/-- The species seen at every matched lattice point of unit-cell site `k`:
the electorate of the majority vote. -/
def votesAt (inp : RegionInput) (k : ℕ) : List ℕ :=
  inp.points.filterMap fun pt =>
    if pt.site = k then
      (ptMatch inp.atoms inp.tolSq pt).map fun j => (inp.atoms.getD j atomDefault).species
    else none

/-- Modelled from the spec: the species expected at a lattice point,
inferred by majority vote over the atoms matched at symmetry-equivalent
sites (falling back to the unit cell's own species when no site of that
kind is occupied). -/
def expectedAt (inp : RegionInput) (pt : LatPoint) : ℕ :=
  (mode (votesAt inp pt.site)).getD pt.expSpecies

/-- Modelled from the spec: a lattice point with no matching atom emits a
Vacancy record carrying the expected species and the reconstructed
position. -/
def vacancies (inp : RegionInput) : List (ℕ × Vec3) :=
  inp.points.filterMap fun pt =>
    match ptMatch inp.atoms inp.tolSq pt with
    | some _ => none
    | none => some (expectedAt inp pt, pt.pos)

/-- The first lattice point claiming atom `j`, if any. -/
def assignedTo (inp : RegionInput) (j : ℕ) : Option LatPoint :=
  inp.points.find? fun pt => ptMatch inp.atoms inp.tolSq pt == some j

/-- The Substitution record of atom `j`, when the species found at its
lattice point differs from the expected one: (index, expected, actual). -/
def subRecOf (inp : RegionInput) (j : ℕ) : Option (ℕ × ℕ × ℕ) :=
  match assignedTo inp j with
  | none => none
  | some pt =>
    let s := (inp.atoms.getD j atomDefault).species
    let e := expectedAt inp pt
    if s = e then none else some (j, e, s)

/-- All Substitution records, scanned in ascending atom-index order. -/
def substitutions (inp : RegionInput) : List (ℕ × ℕ × ℕ) :=
  (List.range inp.atoms.length).filterMap (subRecOf inp)

/-- Atoms never claimed by any lattice point, ascending. -/
def unassigned (inp : RegionInput) : List ℕ :=
  (List.range inp.atoms.length).filter fun j => (assignedTo inp j).isNone

/-- Modelled from the spec: unassigned atoms inside the Delaunay-bulk
containment query are interstitials. -/
def interstitials (inp : RegionInput) : List ℕ :=
  (unassigned inp).filter fun j => inp.insideTest ((inp.atoms.getD j atomDefault).pos)

/-- Unassigned atoms outside the bulk containment query. -/
def outsideAtoms (inp : RegionInput) : List ℕ :=
  (unassigned inp).filter fun j => !(inp.insideTest ((inp.atoms.getD j atomDefault).pos))

/-- Bonding-distance adjacency between two atoms. -/
def bondAdj (inp : RegionInput) (i j : ℕ) : Bool :=
  decide (distSq ((inp.atoms.getD i atomDefault).pos) ((inp.atoms.getD j atomDefault).pos)
    ≤ inp.bondSq)

/-- Connected components of the outside atoms under the bonding graph. -/
def regionGroups (inp : RegionInput) : List (List ℕ) :=
  componentsOf (bondAdj inp) (outsideAtoms inp).length (outsideAtoms inp)

/-- Modelled from the spec: a component is an adsorbate only when its size
and chemical-environment similarity pass the thresholds. -/
def adsorbateGroups (inp : RegionInput) : List (List ℕ) :=
  (regionGroups inp).filter fun g => g.length ≤ inp.sizeLimit && inp.chemOK g

/-- All adsorbate atom indices, grouped in first-encountered traversal
order within each component. -/
def adsorbates (inp : RegionInput) : List ℕ := (adsorbateGroups inp).flatten

/-- Unassigned outside atoms whose component failed the adsorbate test,
ascending. -/
def unknowns (inp : RegionInput) : List ℕ :=
  (outsideAtoms inp).filter fun j => !((adsorbates inp).contains j)

/-- The full annotation emitted by the region classifier. -/
structure ClassifiedRegion where
  vacancies : List (ℕ × Vec3)
  substitutions : List (ℕ × ℕ × ℕ)
  interstitials : List ℕ
  adsorbateGroups : List (List ℕ)
  adsorbates : List ℕ
  unknowns : List ℕ

/-- Modelled from the spec: `classify_region` partitions all atoms of a
region into vacancy / substitution / interstitial / adsorbate / unknown
records. -/
def classify_region (inp : RegionInput) : ClassifiedRegion :=
  ⟨vacancies inp, substitutions inp, interstitials inp,
    adsorbateGroups inp, adsorbates inp, unknowns inp⟩

/-! ## Tiled 2D sheets: the scenario of the defect-detection claims -/

/-- All (tile column, tile row, unit-cell site) index triples of an `M×N`
tiling of a unit cell with `S` sites. -/
def tileIndices (M N S : ℕ) : List (ℕ × ℕ × ℕ) :=
  (List.range M).flatMap fun i =>
    (List.range N).flatMap fun j =>
      (List.range S).map fun k => (i, j, k)

/-- Position of tile index `t` for cell vectors `a`, `b` and unit-cell
sites `sites` (a species and an offset each). -/
def tilePos (a b : Vec3) (sites : List (ℕ × Vec3)) (t : ℕ × ℕ × ℕ) : Vec3 :=
  vadd (smul (t.1 : ℚ) a) (vadd (smul (t.2.1 : ℚ) b) (sites.getD t.2.2 (0, (0, 0, 0))).2)

/-- Species of tile index `t`. -/
def tileSpecies (sites : List (ℕ × Vec3)) (t : ℕ × ℕ × ℕ) : ℕ :=
  (sites.getD t.2.2 (0, (0, 0, 0))).1

/-- The atom of a pristine sheet at tile index `t`. -/
def tileAtom (a b : Vec3) (sites : List (ℕ × Vec3)) (t : ℕ × ℕ × ℕ) : AtomRec :=
  ⟨tileSpecies sites t, tilePos a b sites t⟩

/-- The ideal lattice point at tile index `t`. -/
def tilePoint (a b : Vec3) (sites : List (ℕ × Vec3)) (t : ℕ × ℕ × ℕ) : LatPoint :=
  ⟨t.2.2, tileSpecies sites t, tilePos a b sites t⟩

/-- The atoms of a pristine `M×N` sheet. -/
def sheetAtoms (a b : Vec3) (sites : List (ℕ × Vec3)) (M N : ℕ) : List AtomRec :=
  (tileIndices M N sites.length).map (tileAtom a b sites)

/-- The ideal lattice points covering a pristine `M×N` sheet. -/
def sheetPoints (a b : Vec3) (sites : List (ℕ × Vec3)) (M N : ℕ) : List LatPoint :=
  (tileIndices M N sites.length).map (tilePoint a b sites)

/-- The pristine sheet with the atom of tile `t0` removed. -/
def sheetMinus (a b : Vec3) (sites : List (ℕ × Vec3)) (M N : ℕ) (t0 : ℕ × ℕ × ℕ) :
    List AtomRec :=
  ((tileIndices M N sites.length).erase t0).map (tileAtom a b sites)

/-- The atom at tile `t` after the species of the atom of tile `t0` has been
changed to `newSp`. -/
def substAtom (a b : Vec3) (sites : List (ℕ × Vec3)) (t0 : ℕ × ℕ × ℕ) (newSp : ℕ)
    (t : ℕ × ℕ × ℕ) : AtomRec :=
  if t = t0 then ⟨newSp, tilePos a b sites t⟩ else tileAtom a b sites t

/-- The pristine sheet with the species of the atom of tile `t0` changed to
`newSp`. -/
def sheetSubst (a b : Vec3) (sites : List (ℕ × Vec3)) (M N : ℕ) (t0 : ℕ × ℕ × ℕ)
    (newSp : ℕ) : List AtomRec :=
  (tileIndices M N sites.length).map (substAtom a b sites t0 newSp)

/-- Separation hypothesis: within the tiling, two tile positions within the
(squared) positional tolerance of each other are the same tile. -/
def TilesSeparated (a b : Vec3) (sites : List (ℕ × Vec3)) (M N : ℕ) (tolSq : ℚ) : Prop :=
  ∀ t ∈ tileIndices M N sites.length, ∀ t' ∈ tileIndices M N sites.length,
    distSq (tilePos a b sites t) (tilePos a b sites t') ≤ tolSq → t = t'

/-- The region-classifier input of a sheet whose atom at tile `t` is `f t`,
with a list of extra atoms appended, matched against the sheet's ideal
lattice points. -/
def tiledInput (a b : Vec3) (sites : List (ℕ × Vec3)) (M N : ℕ)
    (tolSq bondSq : ℚ) (sizeLimit : ℕ) (inside : Vec3 → Bool) (chemOK : List ℕ → Bool)
    (f : (ℕ × ℕ × ℕ) → AtomRec) (extra : List AtomRec) : RegionInput :=
  ⟨(tileIndices M N sites.length).map f ++ extra, sheetPoints a b sites M N,
    tolSq, bondSq, sizeLimit, inside, chemOK⟩

/-- The region-classifier input of a pristine sheet with the atom of tile
`t0` removed, against the sheet's ideal lattice points. -/
def vacancyInput (a b : Vec3) (sites : List (ℕ × Vec3)) (M N : ℕ)
    (tolSq bondSq : ℚ) (sizeLimit : ℕ) (inside : Vec3 → Bool) (chemOK : List ℕ → Bool)
    (t0 : ℕ × ℕ × ℕ) : RegionInput :=
  ⟨sheetMinus a b sites M N t0, sheetPoints a b sites M N,
    tolSq, bondSq, sizeLimit, inside, chemOK⟩

/-- Region-classifier run on a pristine sheet with the atom of tile `t0`
removed, against the sheet's ideal lattice points. -/
def vacancyScenario (a b : Vec3) (sites : List (ℕ × Vec3)) (M N : ℕ)
    (tolSq bondSq : ℚ) (sizeLimit : ℕ) (inside : Vec3 → Bool) (chemOK : List ℕ → Bool)
    (t0 : ℕ × ℕ × ℕ) : ClassifiedRegion :=
  classify_region (vacancyInput a b sites M N tolSq bondSq sizeLimit inside chemOK t0)

/-- Region-classifier run on a pristine sheet with the species of the atom
of tile `t0` changed to `newSp`. -/
def substScenario (a b : Vec3) (sites : List (ℕ × Vec3)) (M N : ℕ)
    (tolSq bondSq : ℚ) (sizeLimit : ℕ) (inside : Vec3 → Bool) (chemOK : List ℕ → Bool)
    (t0 : ℕ × ℕ × ℕ) (newSp : ℕ) : ClassifiedRegion :=
  classify_region ⟨sheetSubst a b sites M N t0 newSp, sheetPoints a b sites M N,
    tolSq, bondSq, sizeLimit, inside, chemOK⟩

/-- Region-classifier run on a pristine sheet with a list of extra (cluster)
atoms appended after it. -/
def adsScenario (a b : Vec3) (sites : List (ℕ × Vec3)) (M N : ℕ)
    (tolSq bondSq : ℚ) (sizeLimit : ℕ) (inside : Vec3 → Bool) (chemOK : List ℕ → Bool)
    (cluster : List AtomRec) : ClassifiedRegion :=
  classify_region ⟨sheetAtoms a b sites M N ++ cluster, sheetPoints a b sites M N,
    tolSq, bondSq, sizeLimit, inside, chemOK⟩

/-!
# Theorems
-/

attribute [local semireducible] Rat.add Rat.mul Rat.sub Rat.inv Rat.ofScientific

theorem vsub_vadd_vadd (p q t : Vec3) : vsub (vadd p t) (vadd q t) = vsub p q := by
  simp only [vsub, vadd]
  refine Prod.ext (by ring) (Prod.ext (by ring) (by ring))

theorem normSq_vneg (u : Vec3) : normSq (vneg u) = normSq u := by
  simp only [normSq, dot, vneg]; ring

theorem vneg_vneg (u : Vec3) : vneg (vneg u) = u := by
  simp [vneg]

theorem vneg_vsub (u v : Vec3) : vneg (vsub u v) = vsub v u := by
  simp only [vneg, vsub]
  refine Prod.ext (by ring) (Prod.ext (by ring) (by ring))

theorem vneg_vadd (u v : Vec3) : vneg (vadd u v) = vadd (vneg u) (vneg v) := by
  simp only [vneg, vadd]
  refine Prod.ext (by ring) (Prod.ext (by ring) (by ring))

theorem distSq_vadd_right (p t : Vec3) : distSq p (vadd p t) = normSq t := by
  simp only [distSq, vsub, vadd, normSq, dot]
  ring

theorem getD_map {α β : Type} (g : α → β) (l : List α) (i : ℕ) (hi : i < l.length)
    (d : β) (d' : α) : (l.map g).getD i d = g (l.getD i d') := by
  induction l generalizing i with
  | nil => simp at hi
  | cons x xs ih =>
    cases i with
    | zero => simp [List.getD]
    | succ n =>
      simp only [List.map_cons, List.getD_cons_succ]
      exact ih n (by simpa using hi)

/-- `argminNormSq` returns either the seed or a list element. -/
theorem argminNormSq_mem (best : Vec3) (cs : List Vec3) :
    argminNormSq best cs = best ∨ argminNormSq best cs ∈ cs := by
  induction cs generalizing best with
  | nil => left; simp [argminNormSq]
  | cons c rest ih =>
    simp only [argminNormSq]
    rcases ih (if normSq c < normSq best then c else best) with h | h
    · rw [h]
      by_cases hc : normSq c < normSq best
      · right; simp [hc]
      · left; simp [hc]
    · right; simp [h]

/-- `argminNormSq` returns a candidate whose squared norm is minimal among
the seed and all list elements. -/
theorem argminNormSq_min (best : Vec3) (cs : List Vec3) :
    normSq (argminNormSq best cs) ≤ normSq best ∧
      ∀ c ∈ cs, normSq (argminNormSq best cs) ≤ normSq c := by
  induction cs generalizing best with
  | nil => exact ⟨le_refl _, by simp⟩
  | cons c rest ih =>
    simp only [argminNormSq]
    obtain ⟨h1, h2⟩ := ih (if normSq c < normSq best then c else best)
    by_cases hc : normSq c < normSq best
    · rw [if_pos hc] at h1 h2 ⊢
      refine ⟨le_trans h1 (le_of_lt hc), ?_⟩
      intro x hx
      rcases List.mem_cons.mp hx with h | h
      · exact h ▸ h1
      · exact h2 x h
    · rw [if_neg hc] at h1 h2 ⊢
      refine ⟨h1, ?_⟩
      intro x hx
      rcases List.mem_cons.mp hx with h | h
      · exact h ▸ le_trans h1 (le_of_not_lt hc)
      · exact h2 x h

theorem vadd_zeroVec (d : Vec3) : vadd d (0, 0, 0) = d := by
  simp [vadd]

theorem factorRange_zero_mem (b : Bool) : (0 : ℤ) ∈ factorRange b := by
  cases b <;> simp [factorRange]

theorem factorRange_neg_mem {b : Bool} {k : ℤ} (h : k ∈ factorRange b) :
    -k ∈ factorRange b := by
  cases b
  · simp_all [factorRange]
  · simp only [factorRange, if_pos] at h ⊢
    fin_cases h <;> simp

theorem factorTriples_zero_mem (pbc : Bool × Bool × Bool) :
    ((0, 0, 0) : ℤ × ℤ × ℤ) ∈ factorTriples pbc := by
  simp only [factorTriples, List.mem_flatMap, List.mem_map]
  exact ⟨0, factorRange_zero_mem _, 0, factorRange_zero_mem _,
    0, factorRange_zero_mem _, rfl⟩

theorem factorTriples_neg_mem {pbc : Bool × Bool × Bool} {k : ℤ × ℤ × ℤ}
    (h : k ∈ factorTriples pbc) : (-k.1, -k.2.1, -k.2.2) ∈ factorTriples pbc := by
  simp only [factorTriples, List.mem_flatMap, List.mem_map] at h ⊢
  obtain ⟨k1, h1, k2, h2, k3, h3, rfl⟩ := h
  exact ⟨-k1, factorRange_neg_mem h1, -k2, factorRange_neg_mem h2,
    -k3, factorRange_neg_mem h3, rfl⟩

theorem shiftOf_zero (cell : Vec3 × Vec3 × Vec3) :
    shiftOf cell (0, 0, 0) = (0, 0, 0) := by
  simp only [shiftOf, smul, vadd]
  norm_num

theorem shiftOf_neg (cell : Vec3 × Vec3 × Vec3) (k : ℤ × ℤ × ℤ) :
    shiftOf cell (-k.1, -k.2.1, -k.2.2) = vneg (shiftOf cell k) := by
  simp only [shiftOf, smul, vadd, vneg, Int.cast_neg]
  refine Prod.ext (by ring) (Prod.ext (by ring) (by ring))

theorem micShifts_zero_mem (cell : Vec3 × Vec3 × Vec3) (pbc : Bool × Bool × Bool) :
    (0, 0, 0) ∈ micShifts cell pbc := by
  simp only [micShifts, List.mem_map]
  exact ⟨(0, 0, 0), factorTriples_zero_mem pbc, shiftOf_zero cell⟩

theorem micShifts_neg_mem {cell : Vec3 × Vec3 × Vec3} {pbc : Bool × Bool × Bool} {s : Vec3}
    (h : s ∈ micShifts cell pbc) : vneg s ∈ micShifts cell pbc := by
  simp only [micShifts, List.mem_map] at h ⊢
  obtain ⟨k, hk, rfl⟩ := h
  exact ⟨(-k.1, -k.2.1, -k.2.2), factorTriples_neg_mem hk, shiftOf_neg cell k⟩

theorem self_mem_micCands (cell : Vec3 × Vec3 × Vec3) (pbc : Bool × Bool × Bool) (d : Vec3) :
    d ∈ micCands cell pbc d := by
  simp only [micCands, List.mem_map]
  exact ⟨(0, 0, 0), micShifts_zero_mem cell pbc, vadd_zeroVec d⟩

theorem micCands_neg_mem {cell : Vec3 × Vec3 × Vec3} {pbc : Bool × Bool × Bool} {d c : Vec3}
    (h : c ∈ micCands cell pbc d) : vneg c ∈ micCands cell pbc (vneg d) := by
  simp only [micCands, List.mem_map] at h ⊢
  obtain ⟨s, hs, rfl⟩ := h
  exact ⟨vneg s, micShifts_neg_mem hs, (vneg_vadd d s).symm⟩

theorem micDisp_mem_micCands (cell : Vec3 × Vec3 × Vec3) (pbc : Bool × Bool × Bool)
    (d : Vec3) : micDisp cell pbc d ∈ micCands cell pbc d := by
  rcases argminNormSq_mem d (micCands cell pbc d) with h | h
  · rw [micDisp, h]; exact self_mem_micCands cell pbc d
  · exact h

theorem micDisp_min (cell : Vec3 × Vec3 × Vec3) (pbc : Bool × Bool × Bool) (d : Vec3) :
    ∀ c ∈ micCands cell pbc d, normSq (micDisp cell pbc d) ≤ normSq c :=
  (argminNormSq_min d (micCands cell pbc d)).2

/-- When the minimum image of `d` is unique (a single candidate of minimal
squared norm), the minimum-image reductions of `d` and `−d` are negatives of
one another. -/
theorem micDisp_neg_of_unique {cell : Vec3 × Vec3 × Vec3} {pbc : Bool × Bool × Bool}
    {d : Vec3}
    (huniq : ∀ c1 ∈ micCands cell pbc d, ∀ c2 ∈ micCands cell pbc d,
      (∀ c ∈ micCands cell pbc d, normSq c1 ≤ normSq c) →
      (∀ c ∈ micCands cell pbc d, normSq c2 ≤ normSq c) → c1 = c2) :
    micDisp cell pbc (vneg d) = vneg (micDisp cell pbc d) := by
  have hvmem : micDisp cell pbc d ∈ micCands cell pbc d := micDisp_mem_micCands cell pbc d
  have hvmin : ∀ c ∈ micCands cell pbc d, normSq (micDisp cell pbc d) ≤ normSq c :=
    micDisp_min cell pbc d
  have hwmem : micDisp cell pbc (vneg d) ∈ micCands cell pbc (vneg d) :=
    micDisp_mem_micCands cell pbc (vneg d)
  have hwmin : ∀ c ∈ micCands cell pbc (vneg d),
      normSq (micDisp cell pbc (vneg d)) ≤ normSq c := micDisp_min cell pbc (vneg d)
  have hnwmem : vneg (micDisp cell pbc (vneg d)) ∈ micCands cell pbc d := by
    have := micCands_neg_mem hwmem
    rwa [vneg_vneg] at this
  have hnwmin : ∀ c ∈ micCands cell pbc d,
      normSq (vneg (micDisp cell pbc (vneg d))) ≤ normSq c := by
    intro c hc
    have hc' : vneg c ∈ micCands cell pbc (vneg d) := micCands_neg_mem hc
    have := hwmin _ hc'
    rwa [normSq_vneg, ← normSq_vneg c]
  have := huniq _ hnwmem _ hvmem hnwmin hvmin
  calc micDisp cell pbc (vneg d)
      = vneg (vneg (micDisp cell pbc (vneg d))) := (vneg_vneg _).symm
    _ = vneg (micDisp cell pbc d) := by rw [this]

/-- Entry `(i, j)` of the displacement tensor, for in-range indices. -/
theorem tEntry_get_displacement_tensor (A B : List Vec3) (cell : Vec3 × Vec3 × Vec3)
    (pbc : Bool × Bool × Bool) (mic : Bool) (i j : ℕ)
    (hi : i < A.length) (hj : j < B.length) :
    tEntry (get_displacement_tensor A B cell pbc mic) i j =
      (if mic then micDisp cell pbc (vsub (A.getD i (0, 0, 0)) (B.getD j (0, 0, 0)))
        else vsub (A.getD i (0, 0, 0)) (B.getD j (0, 0, 0))) := by
  unfold tEntry get_displacement_tensor
  rw [getD_map _ A i hi _ (0, 0, 0), getD_map _ B j hj _ (0, 0, 0)]

/-- A common translation of both position lists leaves the displacement
tensor unchanged, with or without the minimum-image reduction. -/
theorem get_displacement_tensor_translate (P : List Vec3) (t : Vec3)
    (cell : Vec3 × Vec3 × Vec3) (pbc : Bool × Bool × Bool) (mic : Bool) :
    get_displacement_tensor (translate P t) (translate P t) cell pbc mic =
      get_displacement_tensor P P cell pbc mic := by
  simp only [get_displacement_tensor, translate, List.map_map, Function.comp_def,
    vsub_vadd_vadd]

/-! ### Claim C5 — size limit -/

/-- C5: for every input structure whose atom count exceeds the configured
maximum, `classify` surfaces the fatal `inputTooLarge` error and produces
no partial result; within the limit it always returns an ordinary
classification — errors are never used for expected negative outcomes. -/
theorem c5_size_limit_error (maxAtoms : ℕ) (thrSq : ℚ) (s : Structure) :
    (maxAtoms < s.atoms.length →
      classify maxAtoms thrSq s = Except.error ClassError.inputTooLarge) ∧
    (s.atoms.length ≤ maxAtoms → ∃ c, classify maxAtoms thrSq s = Except.ok c) := by
  constructor
  · intro h
    simp [classify, h]
  · intro h
    unfold classify
    rw [if_neg (Nat.not_lt.mpr h)]
    exact ⟨_, rfl⟩

theorem c5_size_limit_error_witness :
    classify 1 0 ⟨[atomDefault, atomDefault], ((1, 0, 0), (0, 1, 0), (0, 0, 1)),
        (false, false, false)⟩ = Except.error ClassError.inputTooLarge ∧
      ∃ c, classify 5 0 ⟨[atomDefault, atomDefault], ((1, 0, 0), (0, 1, 0), (0, 0, 1)),
        (false, false, false)⟩ = Except.ok c :=
  ⟨(c5_size_limit_error 1 0 _).1 (by decide),
    (c5_size_limit_error 5 0 _).2 (by decide)⟩

/-! ### Claim C6 — displacement tensor antisymmetry -/

set_option maxRecDepth 4000 in
/-- C6 counterexample: with the minimum-image convention, at a displacement
whose minimum image is tied between two candidates (here `(1, 1/2, 0)` in
the unit cube), the first-found tie-break picks `(0, −1/2, 0)` in both
directions, so `displacement(A,B)[0][0] ≠ −displacement(B,A)[0][0]`. -/
theorem c6_antisymmetry_counterexample :
    ¬ (tEntry (get_displacement_tensor [((1 : ℚ), (1 : ℚ)/2, (0 : ℚ))]
          [((0 : ℚ), (0 : ℚ), (0 : ℚ))]
          (((1 : ℚ), 0, 0), ((0 : ℚ), 1, 0), ((0 : ℚ), 0, 1)) (true, true, true) true) 0 0
        = vneg (tEntry (get_displacement_tensor [((0 : ℚ), (0 : ℚ), (0 : ℚ))]
          [((1 : ℚ), (1 : ℚ)/2, (0 : ℚ))]
          (((1 : ℚ), 0, 0), ((0 : ℚ), 1, 0), ((0 : ℚ), 0, 1)) (true, true, true) true) 0 0)) := by
  decide

/-- C6 (amended): the displacement tensor is elementwise antisymmetric,
`displacement(A,B)[i][j] = −displacement(B,A)[j][i]`, always without the
minimum-image convention, and with it whenever the pair's minimum image is
unique (no tie among the searched candidates). -/
theorem c6_displacement_antisymmetry (A B : List Vec3) (cell : Vec3 × Vec3 × Vec3)
    (pbc : Bool × Bool × Bool) (i j : ℕ) (hi : i < A.length) (hj : j < B.length)
    (huniq : ∀ c1 ∈ micCands cell pbc (vsub (A.getD i (0, 0, 0)) (B.getD j (0, 0, 0))),
      ∀ c2 ∈ micCands cell pbc (vsub (A.getD i (0, 0, 0)) (B.getD j (0, 0, 0))),
      (∀ c ∈ micCands cell pbc (vsub (A.getD i (0, 0, 0)) (B.getD j (0, 0, 0))),
        normSq c1 ≤ normSq c) →
      (∀ c ∈ micCands cell pbc (vsub (A.getD i (0, 0, 0)) (B.getD j (0, 0, 0))),
        normSq c2 ≤ normSq c) → c1 = c2) :
    tEntry (get_displacement_tensor A B cell pbc false) i j =
      vneg (tEntry (get_displacement_tensor B A cell pbc false) j i) ∧
    tEntry (get_displacement_tensor A B cell pbc true) i j =
      vneg (tEntry (get_displacement_tensor B A cell pbc true) j i) := by
  rw [tEntry_get_displacement_tensor A B cell pbc false i j hi hj,
    tEntry_get_displacement_tensor B A cell pbc false j i hj hi,
    tEntry_get_displacement_tensor A B cell pbc true i j hi hj,
    tEntry_get_displacement_tensor B A cell pbc true j i hj hi]
  simp only [if_true, if_false, Bool.false_eq_true, if_neg]
  constructor
  · rw [vneg_vsub]
  · rw [show vsub (B.getD j (0, 0, 0)) (A.getD i (0, 0, 0)) =
        vneg (vsub (A.getD i (0, 0, 0)) (B.getD j (0, 0, 0))) from (vneg_vsub _ _).symm,
      micDisp_neg_of_unique huniq, vneg_vneg]

theorem c6_displacement_antisymmetry_witness :
    (0 < 1) ∧
      tEntry (get_displacement_tensor [((0 : ℚ), (0 : ℚ), (0 : ℚ))]
          [((0 : ℚ), (0 : ℚ), (1 : ℚ)/4)]
          (((1 : ℚ), 0, 0), ((0 : ℚ), 1, 0), ((0 : ℚ), 0, 1)) (false, false, true) true) 0 0 =
        vneg (tEntry (get_displacement_tensor [((0 : ℚ), (0 : ℚ), (1 : ℚ)/4)]
          [((0 : ℚ), (0 : ℚ), (0 : ℚ))]
          (((1 : ℚ), 0, 0), ((0 : ℚ), 1, 0), ((0 : ℚ), 0, 1)) (false, false, true) true) 0 0) :=
  ⟨Nat.zero_lt_one,
    (c6_displacement_antisymmetry [((0 : ℚ), (0 : ℚ), (0 : ℚ))] [((0 : ℚ), (0 : ℚ), (1 : ℚ)/4)]
      (((1 : ℚ), 0, 0), ((0 : ℚ), 1, 0), ((0 : ℚ), 0, 1)) (false, false, true) 0 0
      (by decide) (by decide) (by decide)).2⟩

/-! ### Claim C7 — minimum-image distance matrix translation invariance -/

/-- C7: translating all atom positions by an integer multiple of a periodic
axis's lattice vector leaves the minimum-image distance matrix (squared
entries) unchanged. -/
theorem c7_distance_matrix_translation_invariant (P : List Vec3)
    (cell : Vec3 × Vec3 × Vec3) (pbc : Bool × Bool × Bool) (mic : Bool)
    (axis : ℕ) (n : ℤ) (_hax : pbcGet pbc axis = true) :
    get_distance_matrix_sq (translate P (smul (n : ℚ) (cellRow cell axis)))
        (translate P (smul (n : ℚ) (cellRow cell axis))) cell pbc mic =
      get_distance_matrix_sq P P cell pbc mic := by
  unfold get_distance_matrix_sq
  rw [get_displacement_tensor_translate]

theorem c7_distance_matrix_translation_invariant_witness :
    pbcGet (true, false, true) 0 = true ∧
      get_distance_matrix_sq
          (translate [((0 : ℚ), (0 : ℚ), (0 : ℚ)), ((1 : ℚ)/2, (0 : ℚ), (0 : ℚ))]
            (smul ((3 : ℤ) : ℚ) (cellRow (((1 : ℚ), 0, 0), ((0 : ℚ), 1, 0), ((0 : ℚ), 0, 1)) 0)))
          (translate [((0 : ℚ), (0 : ℚ), (0 : ℚ)), ((1 : ℚ)/2, (0 : ℚ), (0 : ℚ))]
            (smul ((3 : ℤ) : ℚ) (cellRow (((1 : ℚ), 0, 0), ((0 : ℚ), 1, 0), ((0 : ℚ), 0, 1)) 0)))
          (((1 : ℚ), 0, 0), ((0 : ℚ), 1, 0), ((0 : ℚ), 0, 1)) (true, false, true) true =
        get_distance_matrix_sq [((0 : ℚ), (0 : ℚ), (0 : ℚ)), ((1 : ℚ)/2, (0 : ℚ), (0 : ℚ))]
          [((0 : ℚ), (0 : ℚ), (0 : ℚ)), ((1 : ℚ)/2, (0 : ℚ), (0 : ℚ))]
          (((1 : ℚ), 0, 0), ((0 : ℚ), 1, 0), ((0 : ℚ), 0, 1)) (true, false, true) true :=
  ⟨rfl, c7_distance_matrix_translation_invariant _ _ _ true 0 3 rfl⟩

/-! ### Claim C8 — all-nonperiodic structures have dimensionality 0 -/

/-- C8: for every structure whose three periodicity flags are all false,
the dimensionality estimator returns 0, for any cluster threshold. -/
theorem c8_dimensionality_zero_of_no_pbc (s : Structure) (thrSq : ℚ)
    (h : s.pbc = (false, false, false)) : get_dimensionality s thrSq = 0 := by
  unfold get_dimensionality
  rw [show List.range 3 = [0, 1, 2] from rfl]
  simp [h, pbcGet]

theorem c8_dimensionality_zero_of_no_pbc_witness :
    get_dimensionality ⟨[atomDefault], ((1, 0, 0), (0, 1, 0), (0, 0, 1)),
      (false, false, false)⟩ 1 = 0 :=
  c8_dimensionality_zero_of_no_pbc _ 1 rfl

/-! ### Claim C1 — basis selection -/

theorem keyGE_refl (k : ℕ × ℚ × ℝ) : keyGE k k :=
  Or.inr ⟨rfl, Or.inr ⟨rfl, le_refl _⟩⟩

theorem keyBetter_keyGE {k1 k2 : ℕ × ℚ × ℝ} (h : keyBetter k1 k2) : keyGE k1 k2 := by
  rcases h with h | ⟨e1, h | ⟨e2, h⟩⟩
  · exact Or.inl h
  · exact Or.inr ⟨e1, Or.inl h⟩
  · exact Or.inr ⟨e1, Or.inr ⟨e2, le_of_lt h⟩⟩

theorem not_keyBetter_keyGE {k1 k2 : ℕ × ℚ × ℝ} (h : ¬ keyBetter k1 k2) : keyGE k2 k1 := by
  rcases lt_trichotomy k1.1 k2.1 with h1 | h1 | h1
  · exact Or.inl h1
  · rcases lt_trichotomy k1.2.1 k2.2.1 with h2 | h2 | h2
    · exact absurd (Or.inr ⟨h1, Or.inl h2⟩) h
    · rcases le_or_lt k2.2.2 k1.2.2 with h3 | h3
      · exact Or.inr ⟨h1.symm, Or.inr ⟨h2.symm, h3⟩⟩
      · exact absurd (Or.inr ⟨h1, Or.inr ⟨h2, h3⟩⟩) h
    · exact Or.inr ⟨h1.symm, Or.inl h2⟩
  · exact absurd (Or.inl h1) h

theorem keyGE_trans {a b c : ℕ × ℚ × ℝ} (h1 : keyGE a b) (h2 : keyGE b c) : keyGE a c := by
  rcases h1 with h1 | ⟨e1, h1'⟩
  · rcases h2 with h2 | ⟨e2, _⟩
    · exact Or.inl (lt_trans h2 h1)
    · exact Or.inl (e2 ▸ h1)
  · rcases h2 with h2 | ⟨e2, h2'⟩
    · exact Or.inl (e1 ▸ h2)
    · refine Or.inr ⟨e1.trans e2, ?_⟩
      rcases h1' with h1' | ⟨f1, h1''⟩
      · rcases h2' with h2' | ⟨f2, _⟩
        · exact Or.inl (lt_trans h1' h2')
        · exact Or.inl (f2 ▸ h1')
      · rcases h2' with h2' | ⟨f2, h2''⟩
        · exact Or.inl (f1 ▸ h2')
        · exact Or.inr ⟨f1.trans f2, le_trans h1'' h2''⟩

theorem keyGE_total (k1 k2 : ℕ × ℚ × ℝ) : keyGE k1 k2 ∨ keyGE k2 k1 := by
  by_cases h : keyBetter k1 k2
  · exact Or.inl (keyBetter_keyGE h)
  · exact Or.inr (not_keyBetter_keyGE h)

/-- The selection fold returns an element of the scanned candidates (or the
seed), and its key is at least as good as every scanned key. -/
theorem bestFold_spec (spans : List Span) (cs : List (List ℕ)) (b : List ℕ) :
    (cs.foldl (bestStep spans) b = b ∨ cs.foldl (bestStep spans) b ∈ cs) ∧
    keyGE (keyOf spans (cs.foldl (bestStep spans) b)) (keyOf spans b) ∧
    ∀ c ∈ cs, keyGE (keyOf spans (cs.foldl (bestStep spans) b)) (keyOf spans c) := by
  induction cs generalizing b with
  | nil => exact ⟨Or.inl rfl, keyGE_refl _, by simp⟩
  | cons c rest ih =>
    simp only [List.foldl_cons]
    obtain ⟨hmem, hge, hall⟩ := ih (bestStep spans b c)
    have hstep : keyGE (keyOf spans (bestStep spans b c)) (keyOf spans b) ∧
        keyGE (keyOf spans (bestStep spans b c)) (keyOf spans c) := by
      unfold bestStep
      by_cases hbc : keyBetter (keyOf spans c) (keyOf spans b)
      · rw [if_pos hbc]
        exact ⟨keyBetter_keyGE hbc, keyGE_refl _⟩
      · rw [if_neg hbc]
        exact ⟨keyGE_refl _, not_keyBetter_keyGE hbc⟩
    refine ⟨?_, keyGE_trans hge hstep.1, ?_⟩
    · rcases hmem with h | h
      · rw [h]
        unfold bestStep
        by_cases hbc : keyBetter (keyOf spans c) (keyOf spans b)
        · rw [if_pos hbc]
          exact Or.inr (List.mem_cons_self c rest)
        · rw [if_neg hbc]
          exact Or.inl rfl
      · exact Or.inr (List.mem_cons_of_mem _ h)
    · intro x hx
      rcases List.mem_cons.mp hx with rfl | hx
      · exact keyGE_trans hge hstep.2
      · exact hall x hx

/-- C1: whenever at least one linearly-independent combination of the
target dimensionality exists, `find_best_basis` selects a combination of
span indices that is optimal in the strict priority order: maximal total
periodicity metric, then minimal squared volume (area / length), then
minimal sum of the squared deviations of the pairwise angles from 90° —
and the key comparison is total, so the three-level tie-break linearly
pre-orders all combinations. -/
theorem c1_find_best_basis_optimal (spans : List Span) (nTarget : ℕ)
    (h : basisCandidates spans nTarget ≠ []) :
    (∃ c, find_best_basis spans nTarget = some c ∧ c ∈ basisCandidates spans nTarget ∧
      ∀ c' ∈ basisCandidates spans nTarget, keyGE (keyOf spans c) (keyOf spans c')) ∧
    ∀ k1 k2 : ℕ × ℚ × ℝ, keyGE k1 k2 ∨ keyGE k2 k1 := by
  refine ⟨?_, keyGE_total⟩
  unfold find_best_basis
  cases hc : basisCandidates spans nTarget with
  | nil => exact absurd hc h
  | cons c cs =>
    obtain ⟨hmem, hge, hall⟩ := bestFold_spec spans cs c
    refine ⟨cs.foldl (bestStep spans) c, rfl, ?_, ?_⟩
    · rcases hmem with h' | h'
      · rw [h']
        exact List.mem_cons_self c cs
      · exact List.mem_cons_of_mem _ h'
    · intro c' hc'
      rcases List.mem_cons.mp hc' with rfl | hc'
      · exact hge
      · exact hall c' hc'

theorem c1_find_best_basis_optimal_witness :
    basisCandidates [⟨((1 : ℚ), (0 : ℚ), (0 : ℚ)), 1⟩, ⟨((0 : ℚ), (1 : ℚ), (0 : ℚ)), 1⟩,
        ⟨((1 : ℚ), (1 : ℚ), (0 : ℚ)), 1⟩] 2 ≠ [] ∧
      ((∃ c, find_best_basis [⟨((1 : ℚ), (0 : ℚ), (0 : ℚ)), 1⟩,
            ⟨((0 : ℚ), (1 : ℚ), (0 : ℚ)), 1⟩, ⟨((1 : ℚ), (1 : ℚ), (0 : ℚ)), 1⟩] 2 = some c ∧
          c ∈ basisCandidates [⟨((1 : ℚ), (0 : ℚ), (0 : ℚ)), 1⟩,
            ⟨((0 : ℚ), (1 : ℚ), (0 : ℚ)), 1⟩, ⟨((1 : ℚ), (1 : ℚ), (0 : ℚ)), 1⟩] 2 ∧
          ∀ c' ∈ basisCandidates [⟨((1 : ℚ), (0 : ℚ), (0 : ℚ)), 1⟩,
            ⟨((0 : ℚ), (1 : ℚ), (0 : ℚ)), 1⟩, ⟨((1 : ℚ), (1 : ℚ), (0 : ℚ)), 1⟩] 2,
            keyGE (keyOf [⟨((1 : ℚ), (0 : ℚ), (0 : ℚ)), 1⟩, ⟨((0 : ℚ), (1 : ℚ), (0 : ℚ)), 1⟩,
              ⟨((1 : ℚ), (1 : ℚ), (0 : ℚ)), 1⟩] c)
              (keyOf [⟨((1 : ℚ), (0 : ℚ), (0 : ℚ)), 1⟩, ⟨((0 : ℚ), (1 : ℚ), (0 : ℚ)), 1⟩,
                ⟨((1 : ℚ), (1 : ℚ), (0 : ℚ)), 1⟩] c')) ∧
        ∀ k1 k2 : ℕ × ℚ × ℝ, keyGE k1 k2 ∨ keyGE k2 k1) :=
  ⟨by decide, c1_find_best_basis_optimal _ 2 (by decide)⟩

/-! ### Claim C10 — single-atom structures -/

/-- C10 counterexample: a single atom in a tiny cell (each lattice vector of
length 1/10, below the clustering threshold 1) with full periodicity is
connected to its own periodic images along every axis, so the estimated
dimensionality is 3 and the dispatch does not return the Atom category. -/
theorem c10_single_atom_counterexample :
    classify 10 1 ⟨[⟨6, ((0 : ℚ), (0 : ℚ), (0 : ℚ))⟩],
        (((1 : ℚ)/10, 0, 0), ((0 : ℚ), (1 : ℚ)/10, 0), ((0 : ℚ), 0, (1 : ℚ)/10)),
        (true, true, true)⟩ = Except.ok Classification.material3D ∧
      Classification.material3D ≠ Classification.atom :=
  ⟨rfl, by decide⟩

/-- For a one-atom structure, an axis whose lattice vector is longer than
the clustering threshold fails the image-connectivity test. -/
theorem axisImagesConnected_single (a : AtomRec) (cell : Vec3 × Vec3 × Vec3)
    (pbc : Bool × Bool × Bool) (thrSq : ℚ) (ax : ℕ)
    (h : thrSq < normSq (cellRow cell ax)) :
    axisImagesConnected ⟨[a], cell, pbc⟩ thrSq ax = false := by
  have hfar : thrSq < distSq a.pos (vadd a.pos (cellRow cell ax)) := by
    rw [distSq_vadd_right]
    exact h
  simp [axisImagesConnected, closure, hfar, hfar.not_le]

/-- For a one-atom structure whose periodic axes all have lattice vectors
longer than the clustering threshold, the estimated dimensionality is 0. -/
theorem get_dimensionality_single (a : AtomRec) (cell : Vec3 × Vec3 × Vec3)
    (pbc : Bool × Bool × Bool) (thrSq : ℚ)
    (h : ∀ ax, pbcGet pbc ax = true → thrSq < normSq (cellRow cell ax)) :
    get_dimensionality ⟨[a], cell, pbc⟩ thrSq = 0 := by
  have hax : ∀ ax, (pbcGet pbc ax && axisImagesConnected ⟨[a], cell, pbc⟩ thrSq ax) = false := by
    intro ax
    cases hpb : pbcGet pbc ax with
    | false => simp
    | true => rw [axisImagesConnected_single a cell pbc thrSq ax (h ax hpb)]; simp
  unfold get_dimensionality
  rw [show List.range 3 = [0, 1, 2] from rfl]
  simp [hax]

/-- C10 (amended): every structure containing exactly one atom is
classified as Atom, for every periodicity flag combination and every cell
whose periodic axes are longer than the clustering threshold (an
undersized periodic cell instead bonds the atom to its own images and is
dispatched as a periodic material). -/
theorem c10_single_atom_is_atom (a : AtomRec) (cell : Vec3 × Vec3 × Vec3)
    (pbc : Bool × Bool × Bool) (thrSq : ℚ) (maxAtoms : ℕ) (hmax : 1 ≤ maxAtoms)
    (h : ∀ ax, pbcGet pbc ax = true → thrSq < normSq (cellRow cell ax)) :
    classify maxAtoms thrSq ⟨[a], cell, pbc⟩ = Except.ok Classification.atom := by
  have hdim := get_dimensionality_single a cell pbc thrSq h
  unfold classify
  rw [if_neg (Nat.not_lt.mpr (by simpa using hmax))]
  rw [hdim]
  rfl

theorem c10_single_atom_is_atom_witness :
    (1 ≤ 10) ∧
      classify 10 1 ⟨[⟨6, ((0 : ℚ), (0 : ℚ), (0 : ℚ))⟩],
        (((2 : ℚ), 0, 0), ((0 : ℚ), 2, 0), ((0 : ℚ), 0, 2)), (true, true, false)⟩ =
        Except.ok Classification.atom :=
  ⟨by decide,
    c10_single_atom_is_atom _ _ _ 1 10 (by decide) (by
      intro ax hax
      match ax with
      | 0 => norm_num [cellRow, normSq, dot]
      | 1 => norm_num [cellRow, normSq, dot]
      | (n + 2) => simp [pbcGet] at hax)⟩

/-! ### Helper lemmas for the region classifier -/

theorem firstHitAux_eq_none (cond : AtomRec → Bool) (l : List AtomRec)
    (h : ∀ x ∈ l, cond x = false) : ∀ i, firstHitAux cond l i = none := by
  induction l with
  | nil => intro i; rfl
  | cons a rest ih =>
    intro i
    simp only [firstHitAux]
    rw [if_neg (by simp [h a (List.mem_cons_self a rest)])]
    exact ih (fun x hx => h x (List.mem_cons_of_mem a hx)) (i + 1)

theorem firstHitAux_eq_some_of_unique (cond : AtomRec → Bool) (l : List AtomRec) (j : ℕ)
    (hj : j < l.length) (hcond : cond (l.getD j atomDefault) = true)
    (huniq : ∀ m, m < l.length → cond (l.getD m atomDefault) = true → m = j) :
    ∀ i, firstHitAux cond l i = some (i + j) := by
  induction l generalizing j with
  | nil => simp at hj
  | cons a rest ih =>
    intro i
    simp only [firstHitAux]
    by_cases ha : cond a = true
    · have h0 : 0 = j := huniq 0 (by simp) (by simpa using ha)
      rw [if_pos ha, ← h0, Nat.add_zero]
    · rw [if_neg ha]
      cases j with
      | zero => exact absurd (by simpa using hcond) ha
      | succ j' =>
        have := ih j' (by simpa using hj) (by simpa using hcond)
          (fun m hm hc => by
            have := huniq (m + 1) (by simpa using hm) (by simpa using hc)
            omega) (i + 1)
        rw [this]
        congr 1
        omega

theorem firstHit_eq_none (atoms : List AtomRec) (tolSq : ℚ) (p : Vec3)
    (h : ∀ x ∈ atoms, hitCond tolSq p x = false) : firstHit atoms tolSq p = none :=
  firstHitAux_eq_none _ atoms h 0

theorem firstHit_eq_some_of_unique (atoms : List AtomRec) (tolSq : ℚ) (p : Vec3) (j : ℕ)
    (hj : j < atoms.length) (hcond : hitCond tolSq p (atoms.getD j atomDefault) = true)
    (huniq : ∀ m, m < atoms.length → hitCond tolSq p (atoms.getD m atomDefault) = true → m = j) :
    firstHit atoms tolSq p = some j := by
  have := firstHitAux_eq_some_of_unique _ atoms j hj hcond huniq 0
  simpa using this

theorem find?_eq_some_of_unique {α : Type} (p : α → Bool) (l : List α) (x : α)
    (hx : x ∈ l) (hpx : p x = true) (huniq : ∀ y ∈ l, p y = true → y = x) :
    l.find? p = some x := by
  induction l with
  | nil => simp at hx
  | cons a rest ih =>
    by_cases ha : p a = true
    · rw [List.find?_cons_of_pos _ ha, huniq a (List.mem_cons_self a rest) ha]
    · rw [List.find?_cons_of_neg _ (by simpa using ha)]
      rcases List.mem_cons.mp hx with rfl | hx'
      · exact absurd hpx ha
      · exact ih hx' (fun y hy hpy => huniq y (List.mem_cons_of_mem a hy) hpy)

theorem filterMap_eq_nil_of_none {α β : Type} (f : α → Option β) (l : List α)
    (h : ∀ x ∈ l, f x = none) : l.filterMap f = [] := by
  induction l with
  | nil => rfl
  | cons a rest ih =>
    rw [List.filterMap_cons, h a (List.mem_cons_self a rest)]
    exact ih fun x hx => h x (List.mem_cons_of_mem a hx)

theorem filterMap_eq_singleton_of_unique {α β : Type} (f : α → Option β) (l : List α)
    (x : α) (v : β) (hnd : l.Nodup) (hx : x ∈ l) (hfx : f x = some v)
    (hother : ∀ y ∈ l, y ≠ x → f y = none) : l.filterMap f = [v] := by
  induction l with
  | nil => simp at hx
  | cons a rest ih =>
    by_cases hax : a = x
    · subst hax
      rw [List.filterMap_cons, hfx]
      have : rest.filterMap f = [] := by
        apply filterMap_eq_nil_of_none
        intro y hy
        have hne : y ≠ a := by
          intro h
          exact (List.nodup_cons.mp hnd).1 (h ▸ hy)
        exact hother y (List.mem_cons_of_mem a hy) hne
      rw [this]
    · have hx' : x ∈ rest := by
        rcases List.mem_cons.mp hx with h | h
        · exact absurd h.symm hax
        · exact h
      rw [List.filterMap_cons, hother a (List.mem_cons_self a rest) hax]
      exact ih (List.nodup_cons.mp hnd).2 hx'
        (fun y hy hne => hother y (List.mem_cons_of_mem a hy) hne)

/-- `filterMap` of a guarded `some` is `map` over `filter`. -/
theorem filterMap_guard_eq_map_filter {α β : Type} (p : α → Bool) (g : α → β) (l : List α) :
    (l.filterMap fun x => if p x then some (g x) else none) = (l.filter p).map g := by
  induction l with
  | nil => rfl
  | cons a rest ih =>
    rw [List.filterMap_cons, List.filter_cons]
    by_cases ha : p a = true
    · rw [if_pos ha, if_pos (by simpa using ha), List.map_cons, ih]
    · rw [if_neg (by simpa using ha), if_neg (by simpa using ha), ih]

/-- `filterMap` of a decidably-guarded `some` is `map` over `filter`. -/
theorem filterMap_dguard_eq_map_filter {α β : Type} (P : α → Prop) [DecidablePred P]
    (g : α → β) (l : List α) :
    (l.filterMap fun x => if P x then some (g x) else none) =
      (l.filter fun x => decide (P x)).map g := by
  induction l with
  | nil => rfl
  | cons x rest ih =>
    rw [List.filterMap_cons, List.filter_cons]
    by_cases hx : P x
    · rw [if_pos hx, if_pos (by simpa using hx), List.map_cons, ih]
    · rw [if_neg hx, if_neg (by simpa using hx), ih]

theorem foldl_modeStep_fixed (l : List ℕ) (s : ℕ) (rest : List ℕ)
    (h : ∀ x ∈ rest, ¬ (l.count s < l.count x)) :
    rest.foldl (modeStep l) (some s) = some s := by
  induction rest with
  | nil => rfl
  | cons x xs ih =>
    simp only [List.foldl_cons, modeStep]
    rw [if_neg (h x (List.mem_cons_self x xs))]
    exact ih fun y hy => h y (List.mem_cons_of_mem x hy)

theorem foldl_modeStep_major (l : List ℕ) (s : ℕ)
    (hmaj : ∀ x ∈ l, x ≠ s → l.count x < l.count s) :
    ∀ (rest : List ℕ) (b : Option ℕ), s ∈ rest → (∀ x ∈ rest, x ∈ l) →
      (b = none ∨ ∃ bb ∈ l, b = some bb) →
      rest.foldl (modeStep l) b = some s := by
  have hfix : ∀ rest : List ℕ, (∀ x ∈ rest, x ∈ l) →
      rest.foldl (modeStep l) (some s) = some s := by
    intro rest hsub
    apply foldl_modeStep_fixed
    intro x hx
    by_cases hxs : x = s
    · rw [hxs]; exact lt_irrefl _
    · exact not_lt_of_lt (hmaj x (hsub x hx) hxs)
  intro rest
  induction rest with
  | nil => intro b hs; simp at hs
  | cons x xs ih =>
    intro b hs hsub hb
    simp only [List.foldl_cons]
    by_cases hsx : s ∈ xs
    · apply ih _ hsx (fun y hy => hsub y (List.mem_cons_of_mem x hy))
      rcases hb with rfl | ⟨bb, hbb, rfl⟩
      · right
        exact ⟨x, hsub x (List.mem_cons_self x xs), rfl⟩
      · simp only [modeStep]
        by_cases hlt : l.count bb < l.count x
        · rw [if_pos hlt]
          right
          exact ⟨x, hsub x (List.mem_cons_self x xs), rfl⟩
        · rw [if_neg hlt]
          right
          exact ⟨bb, hbb, rfl⟩
    · have hx : x = s := by
        rcases List.mem_cons.mp hs with h | h
        · exact h.symm
        · exact absurd h hsx
      subst hx
      have hstep : modeStep l b x = some x := by
        rcases hb with rfl | ⟨bb, hbb, rfl⟩
        · rfl
        · simp only [modeStep]
          by_cases hbx : bb = x
          · rw [hbx, if_neg (lt_irrefl _)]
          · rw [if_pos (hmaj bb hbb hbx)]
      rw [hstep]
      exact hfix xs fun y hy => hsub y (List.mem_cons_of_mem x hy)

/-- Majority vote: an element strictly more frequent than every other
element wins the vote. -/
theorem mode_majority (l : List ℕ) (s : ℕ) (hs : s ∈ l)
    (hmaj : ∀ x ∈ l, x ≠ s → l.count x < l.count s) : mode l = some s :=
  foldl_modeStep_major l s hmaj l none hs (fun _ hx => hx) (Or.inl rfl)

/-- A nonempty list of equal elements votes for that element. -/
theorem mode_all_eq (l : List ℕ) (s : ℕ) (hs : s ∈ l) (hall : ∀ x ∈ l, x = s) :
    mode l = some s :=
  mode_majority l s hs fun x hx hne => absurd (hall x hx) hne

theorem mem_tileIndices {M N S : ℕ} {t : ℕ × ℕ × ℕ} :
    t ∈ tileIndices M N S ↔ t.1 < M ∧ t.2.1 < N ∧ t.2.2 < S := by
  obtain ⟨i, j, k⟩ := t
  simp only [tileIndices, List.mem_flatMap, List.mem_map, List.mem_range]
  constructor
  · rintro ⟨i', hi, j', hj, k', hk, h⟩
    obtain ⟨rfl, rfl, rfl⟩ : i' = i ∧ j' = j ∧ k' = k := by
      refine ⟨congrArg Prod.fst h, ?_, ?_⟩
      · exact congrArg (Prod.fst ∘ Prod.snd) h
      · exact congrArg (Prod.snd ∘ Prod.snd) h
    exact ⟨hi, hj, hk⟩
  · rintro ⟨hi, hj, hk⟩
    exact ⟨i, hi, j, hj, k, hk, rfl⟩

theorem tileIndices_nodup (M N S : ℕ) : (tileIndices M N S).Nodup := by
  rw [tileIndices, List.nodup_flatMap]
  refine ⟨?_, ?_⟩
  · intro i _
    rw [List.nodup_flatMap]
    refine ⟨?_, ?_⟩
    · intro j _
      exact (List.nodup_range S).map fun k k' h => congrArg (Prod.snd ∘ Prod.snd) h
    · refine (List.nodup_range N).imp ?_
      intro j₁ j₂ hne
      intro t ht₁ ht₂
      simp only [List.mem_map] at ht₁ ht₂
      obtain ⟨k₁, _, rfl⟩ := ht₁
      obtain ⟨k₂, _, h⟩ := ht₂
      exact hne (congrArg (Prod.fst ∘ Prod.snd) h).symm
  · refine (List.nodup_range M).imp ?_
    intro i₁ i₂ hne
    intro t ht₁ ht₂
    simp only [List.mem_flatMap, List.mem_map] at ht₁ ht₂
    obtain ⟨j₁, _, k₁, _, rfl⟩ := ht₁
    obtain ⟨j₂, _, k₂, _, h⟩ := ht₂
    exact hne (congrArg Prod.fst h).symm

/-! ### The connectivity closure reaches a fixpoint -/

/-- With enough fuel, the closure returns a list that (together with the
dropped remainder) permutes the input, contains all of `acc`, and is
adjacency-closed: no dropped element is adjacent to a returned one. -/
theorem closure_spec (adj : ℕ → ℕ → Bool) :
    ∀ (fuel : ℕ) (acc rest : List ℕ), rest.length ≤ fuel →
      ∃ rest', (closure adj fuel acc rest ++ rest').Perm (acc ++ rest) ∧
        (∀ x ∈ rest', ∀ y ∈ closure adj fuel acc rest, adj y x = false) ∧
        (∀ x ∈ acc, x ∈ closure adj fuel acc rest) := by
  intro fuel
  induction fuel with
  | zero =>
    intro acc rest h
    have hrest : rest = [] := List.eq_nil_of_length_eq_zero (Nat.le_zero.mp h)
    subst hrest
    exact ⟨[], by simp [closure], by simp [closure], by simp [closure]⟩
  | succ f ih =>
    intro acc rest h
    by_cases hnew : (rest.filter fun x => acc.any fun y => adj y x) = []
    · refine ⟨rest, ?_, ?_, ?_⟩
      · rw [closure, if_pos hnew]
      · rw [closure, if_pos hnew]
        intro x hx y hy
        have := List.filter_eq_nil_iff.mp hnew x hx
        simp only [List.any_eq_true, not_exists, not_and] at this
        by_contra hadj
        exact this y hy (by simpa using hadj)
      · rw [closure, if_pos hnew]
        intro x hx
        exact hx
    · have hlen : (rest.filter fun x => !acc.any fun y => adj y x).length ≤ f := by
        have hsplit := List.length_eq_length_filter_add
          (l := rest) (fun x => acc.any fun y => adj y x)
        have hpos : 0 < (rest.filter fun x => acc.any fun y => adj y x).length :=
          List.length_pos.mpr hnew
        omega
      obtain ⟨rest', hperm, hcond, hacc⟩ :=
        ih (acc ++ rest.filter fun x => acc.any fun y => adj y x)
          (rest.filter fun x => !acc.any fun y => adj y x) hlen
      rw [closure, if_neg hnew]
      refine ⟨rest', ?_, hcond, ?_⟩
      · refine hperm.trans ?_
        rw [List.append_assoc]
        exact (List.filter_append_perm _ rest).append_left acc
      · intro x hx
        exact hacc x (List.mem_append.mpr (Or.inl hx))

/-- A connected nonempty vertex list forms exactly one component, a
permutation of the whole list. -/
theorem componentsOf_connected (adj : ℕ → ℕ → Bool) (u0 : ℕ) (urest : List ℕ)
    (hnd : (u0 :: urest).Nodup)
    (hconn : ∀ x ∈ u0 :: urest,
      Relation.ReflTransGen (fun a b => adj a b = true ∧ b ∈ u0 :: urest) u0 x) :
    ∃ g, componentsOf adj (u0 :: urest).length (u0 :: urest) = [g] ∧
      g.Perm (u0 :: urest) := by
  obtain ⟨rest', hperm, hcond, hacc⟩ :=
    closure_spec adj (u0 :: urest).length [u0] urest (by simp)
  set res := closure adj (u0 :: urest).length [u0] urest with hres
  have hmemres : ∀ x, x ∈ res ++ rest' ↔ x ∈ u0 :: urest := fun x => hperm.mem_iff
  have hu0 : u0 ∈ res := hacc u0 (by simp)
  -- reachable vertices are all in `res`
  have hreach : ∀ x, Relation.ReflTransGen
      (fun a b => adj a b = true ∧ b ∈ u0 :: urest) u0 x → x ∈ res := by
    intro x hx
    induction hx with
    | refl => exact hu0
    | tail _ hstep ihy =>
      rename_i y z _
      obtain ⟨hadj, hz⟩ := hstep
      by_cases hzres : z ∈ res
      · exact hzres
      · have : z ∈ rest' := by
          rcases List.mem_append.mp ((hmemres z).mpr hz) with h | h
          · exact absurd h hzres
          · exact h
        exact absurd hadj (by simp [hcond z this y ihy])
  have hall : ∀ x ∈ u0 :: urest, x ∈ res := fun x hx => hreach x (hconn x hx)
  -- the remainder must be empty
  have hnd' : (res ++ rest').Nodup := hperm.symm.nodup hnd
  have hrest' : rest' = [] := by
    cases hr : rest' with
    | nil => rfl
    | cons z zs =>
      have hz : z ∈ rest' := hr ▸ List.mem_cons_self z zs
      have hzin : z ∈ u0 :: urest := (hmemres z).mp (List.mem_append.mpr (Or.inr hz))
      have hzres : z ∈ res := hall z hzin
      exact absurd hzres ((List.disjoint_of_nodup_append hnd') · hz)
  rw [hrest', List.append_nil] at hperm
  -- unfold one step of componentsOf
  refine ⟨res, ?_, hperm⟩
  show componentsOf adj (urest.length + 1) (u0 :: urest) = [res]
  rw [componentsOf]
  have hfilter : (urest.filter fun y => !res.contains y) = [] := by
    apply List.filter_eq_nil_iff.mpr
    intro y hy
    have : y ∈ res := hall y (List.mem_cons_of_mem u0 hy)
    simp [List.contains, this]
  rw [show closure adj (u0 :: urest).length [u0] urest = res from rfl, hfilter]
  cases urest.length <;> rfl

/-! ### Matching atoms of a tiled sheet against ideal lattice points -/

theorem distSq_self (u : Vec3) : distSq u u = 0 := by
  simp only [distSq, vsub, normSq, dot]
  ring

theorem getD_mem_of_lt {α : Type} (l : List α) (j : ℕ) (d : α) (hj : j < l.length) :
    l.getD j d ∈ l := by
  rw [List.getD_eq_getElem l d hj]
  exact List.getElem_mem hj

theorem nodup_getD_inj {α : Type} (l : List α) (hnd : l.Nodup) (d : α) {m j : ℕ}
    (hm : m < l.length) (hj : j < l.length) (h : l.getD m d = l.getD j d) : m = j := by
  rw [List.getD_eq_getElem l d hm, List.getD_eq_getElem l d hj] at h
  exact List.Nodup.getElem_inj_iff hnd |>.mp h

/-- Under the separation hypothesis, an atom sitting at tile `t'` is within
tolerance of the lattice position of tile `t` exactly when `t' = t`. -/
theorem hitCond_tilePos (a b : Vec3) (sites : List (ℕ × Vec3)) (M N : ℕ) (tolSq : ℚ)
    (htol : 0 ≤ tolSq) (hsep : TilesSeparated a b sites M N tolSq) {t t' : ℕ × ℕ × ℕ}
    (ht : t ∈ tileIndices M N sites.length) (ht' : t' ∈ tileIndices M N sites.length)
    (x : AtomRec) (hx : x.pos = tilePos a b sites t') :
    hitCond tolSq (tilePos a b sites t) x = true ↔ t' = t := by
  unfold hitCond
  rw [hx]
  simp only [decide_eq_true_eq]
  constructor
  · intro h
    exact hsep t' ht' t ht h
  · rintro rfl
    rw [distSq_self]
    exact htol

/-- The first hit of the lattice position of tile `t` inside a duplicate-free
tile list is the index holding `t`. -/
theorem firstHit_tiles_some (a b : Vec3) (sites : List (ℕ × Vec3)) (M N : ℕ) (tolSq : ℚ)
    (htol : 0 ≤ tolSq) (hsep : TilesSeparated a b sites M N tolSq)
    (tilesList : List (ℕ × ℕ × ℕ)) (f : (ℕ × ℕ × ℕ) → AtomRec)
    (hf : ∀ t ∈ tilesList, (f t).pos = tilePos a b sites t)
    (hsub : ∀ t ∈ tilesList, t ∈ tileIndices M N sites.length)
    (hnd : tilesList.Nodup) {t : ℕ × ℕ × ℕ} (ht : t ∈ tileIndices M N sites.length)
    (j : ℕ) (hj : j < tilesList.length) (hgj : tilesList.getD j (0, 0, 0) = t) :
    firstHit (tilesList.map f) tolSq (tilePos a b sites t) = some j := by
  apply firstHit_eq_some_of_unique
  · rw [List.length_map]
    exact hj
  · rw [getD_map f tilesList j hj _ (0, 0, 0), hgj]
    have htl : t ∈ tilesList := hgj ▸ getD_mem_of_lt tilesList j (0, 0, 0) hj
    exact (hitCond_tilePos a b sites M N tolSq htol hsep ht ht (f t) (hf t htl)).mpr rfl
  · intro m hm hc
    rw [List.length_map] at hm
    rw [getD_map f tilesList m hm _ (0, 0, 0)] at hc
    have hmem : tilesList.getD m (0, 0, 0) ∈ tilesList := getD_mem_of_lt tilesList m (0, 0, 0) hm
    have : tilesList.getD m (0, 0, 0) = t :=
      (hitCond_tilePos a b sites M N tolSq htol hsep ht (hsub _ hmem) _ (hf _ hmem)).mp hc
    exact nodup_getD_inj tilesList hnd (0, 0, 0) hm hj (this.trans hgj.symm)

/-- A tile absent from the tile list is matched by no atom. -/
theorem firstHit_tiles_none (a b : Vec3) (sites : List (ℕ × Vec3)) (M N : ℕ) (tolSq : ℚ)
    (hsep : TilesSeparated a b sites M N tolSq)
    (tilesList : List (ℕ × ℕ × ℕ)) (f : (ℕ × ℕ × ℕ) → AtomRec)
    (hf : ∀ t ∈ tilesList, (f t).pos = tilePos a b sites t)
    (hsub : ∀ t ∈ tilesList, t ∈ tileIndices M N sites.length)
    {t : ℕ × ℕ × ℕ} (ht : t ∈ tileIndices M N sites.length) (htl : t ∉ tilesList)
    (htol : 0 ≤ tolSq) :
    firstHit (tilesList.map f) tolSq (tilePos a b sites t) = none := by
  apply firstHit_eq_none
  intro x hx
  obtain ⟨t', ht', rfl⟩ := List.mem_map.mp hx
  by_contra hne
  have hc : hitCond tolSq (tilePos a b sites t) (f t') = true := by
    cases h : hitCond tolSq (tilePos a b sites t) (f t')
    · exact absurd h hne
    · rfl
  have : t' = t :=
    (hitCond_tilePos a b sites M N tolSq htol hsep ht (hsub t' ht') (f t') (hf t' ht')).mp hc
  exact htl (this ▸ ht')

theorem firstHitAux_append (cond : AtomRec → Bool) (l1 l2 : List AtomRec)
    (h2 : ∀ x ∈ l2, cond x = false) :
    ∀ i, firstHitAux cond (l1 ++ l2) i = firstHitAux cond l1 i := by
  induction l1 with
  | nil =>
    intro i
    rw [List.nil_append, firstHitAux_eq_none cond l2 h2 i]
    rfl
  | cons x rest ih =>
    intro i
    simp only [List.cons_append, firstHitAux]
    by_cases hx : cond x = true
    · rw [if_pos hx, if_pos hx]
    · rw [if_neg hx, if_neg hx]
      exact ih (i + 1)

/-- Atoms appended after the sheet that match no lattice position do not
change the matching. -/
theorem firstHit_append (atoms extra : List AtomRec) (tolSq : ℚ) (p : Vec3)
    (h2 : ∀ x ∈ extra, hitCond tolSq p x = false) :
    firstHit (atoms ++ extra) tolSq p = firstHit atoms tolSq p :=
  firstHitAux_append _ atoms extra h2 0

/-! ### The region classifier on a fully tiled sheet (plus extra atoms) -/

section TiledSheet

variable (a b : Vec3) (sites : List (ℕ × Vec3)) (M N : ℕ) (tolSq bondSq : ℚ)
variable (sizeLimit : ℕ) (inside : Vec3 → Bool) (chemOK : List ℕ → Bool)
variable (f : (ℕ × ℕ × ℕ) → AtomRec) (extra : List AtomRec)
variable (htol : 0 ≤ tolSq) (hsep : TilesSeparated a b sites M N tolSq)
variable (hf : ∀ t ∈ tileIndices M N sites.length, (f t).pos = tilePos a b sites t)
variable (hextra : ∀ x ∈ extra, ∀ t ∈ tileIndices M N sites.length,
  ¬ (distSq x.pos (tilePos a b sites t) ≤ tolSq))

theorem tiledInput_atoms :
    (tiledInput a b sites M N tolSq bondSq sizeLimit inside chemOK f extra).atoms =
      (tileIndices M N sites.length).map f ++ extra := rfl

theorem tiledInput_points :
    (tiledInput a b sites M N tolSq bondSq sizeLimit inside chemOK f extra).points =
      (tileIndices M N sites.length).map (tilePoint a b sites) := rfl

theorem tiledInput_tolSq :
    (tiledInput a b sites M N tolSq bondSq sizeLimit inside chemOK f extra).tolSq =
      tolSq := rfl

include htol hsep hf hextra

theorem tiled_ptMatch {t : ℕ × ℕ × ℕ} (ht : t ∈ tileIndices M N sites.length)
    {j : ℕ} (hj : j < (tileIndices M N sites.length).length)
    (hgj : (tileIndices M N sites.length).getD j (0, 0, 0) = t) :
    ptMatch ((tileIndices M N sites.length).map f ++ extra) tolSq
      (tilePoint a b sites t) = some j := by
  unfold ptMatch
  show firstHit _ tolSq (tilePos a b sites t) = some j
  rw [firstHit_append]
  · exact firstHit_tiles_some a b sites M N tolSq htol hsep _ f hf
      (fun _ h => h) (tileIndices_nodup M N sites.length) ht j hj hgj
  · intro x hx
    unfold hitCond
    simpa using hextra x hx t ht

/-- Every lattice point of the sheet is matched, to the atom holding the
same tile index. -/
theorem tiled_ptMatch_get {t : ℕ × ℕ × ℕ} (ht : t ∈ tileIndices M N sites.length) :
    ∃ j, j < (tileIndices M N sites.length).length ∧
      (tileIndices M N sites.length).getD j (0, 0, 0) = t ∧
      ptMatch ((tileIndices M N sites.length).map f ++ extra) tolSq
        (tilePoint a b sites t) = some j := by
  obtain ⟨j, hj, hget⟩ := List.getElem_of_mem ht
  have hgj : (tileIndices M N sites.length).getD j (0, 0, 0) = t := by
    rw [List.getD_eq_getElem _ _ hj]
    exact hget
  exact ⟨j, hj, hgj, tiled_ptMatch a b sites M N tolSq f extra htol hsep hf hextra ht hj hgj⟩

/-- The sheet atom at list index `j` is claimed by the lattice point of its
own tile. -/
theorem tiled_assignedTo {j : ℕ} (hj : j < (tileIndices M N sites.length).length) :
    assignedTo (tiledInput a b sites M N tolSq bondSq sizeLimit inside chemOK f extra) j =
      some (tilePoint a b sites ((tileIndices M N sites.length).getD j (0, 0, 0))) := by
  unfold assignedTo
  simp only [tiledInput_points, tiledInput_atoms, tiledInput_tolSq]
  apply find?_eq_some_of_unique
  · exact List.mem_map.mpr ⟨_, getD_mem_of_lt _ j (0, 0, 0) hj, rfl⟩
  · rw [tiled_ptMatch a b sites M N tolSq f extra htol hsep hf hextra
      (getD_mem_of_lt _ j (0, 0, 0) hj) hj rfl]
    simp
  · intro y hy hpy
    obtain ⟨t', ht', rfl⟩ := List.mem_map.mp hy
    obtain ⟨j', hj', hgj', hmatch⟩ :=
      tiled_ptMatch_get a b sites M N tolSq f extra htol hsep hf hextra ht'
    rw [hmatch] at hpy
    have : j' = j := by simpa using hpy
    rw [← hgj', this]

/-- Atoms appended after the sheet are claimed by no lattice point. -/
theorem tiled_assignedTo_extra {j : ℕ} (hj : (tileIndices M N sites.length).length ≤ j) :
    assignedTo (tiledInput a b sites M N tolSq bondSq sizeLimit inside chemOK f extra) j =
      none := by
  unfold assignedTo
  simp only [tiledInput_points, tiledInput_atoms, tiledInput_tolSq]
  rw [List.find?_eq_none]
  intro pt hpt
  obtain ⟨t', ht', rfl⟩ := List.mem_map.mp hpt
  obtain ⟨j', hj', _, hmatch⟩ :=
    tiled_ptMatch_get a b sites M N tolSq f extra htol hsep hf hextra ht'
  rw [hmatch]
  simp
  omega

/-- The unassigned atoms are exactly the extra atoms, ascending. -/
theorem tiled_unassigned :
    unassigned (tiledInput a b sites M N tolSq bondSq sizeLimit inside chemOK f extra) =
      (List.range extra.length).map ((tileIndices M N sites.length).length + ·) := by
  unfold unassigned
  rw [show (tiledInput a b sites M N tolSq bondSq sizeLimit inside chemOK f extra).atoms.length
      = (tileIndices M N sites.length).length + extra.length by
    rw [tiledInput_atoms, List.length_append, List.length_map]]
  rw [List.range_add, List.filter_append]
  have h1 : (List.range (tileIndices M N sites.length).length).filter
      (fun j => (assignedTo (tiledInput a b sites M N tolSq bondSq sizeLimit inside chemOK
        f extra) j).isNone) = [] := by
    rw [List.filter_eq_nil_iff]
    intro j hjr
    rw [tiled_assignedTo a b sites M N tolSq bondSq sizeLimit inside chemOK f extra htol
      hsep hf hextra (List.mem_range.mp hjr)]
    simp
  have h2 : ((List.range extra.length).map ((tileIndices M N sites.length).length + ·)).filter
      (fun j => (assignedTo (tiledInput a b sites M N tolSq bondSq sizeLimit inside chemOK
        f extra) j).isNone) =
      (List.range extra.length).map ((tileIndices M N sites.length).length + ·) := by
    rw [List.filter_eq_self]
    intro j hjm
    obtain ⟨i, _, rfl⟩ := List.mem_map.mp hjm
    rw [tiled_assignedTo_extra a b sites M N tolSq bondSq sizeLimit inside chemOK f extra
      htol hsep hf hextra (Nat.le_add_right _ _)]
    rfl
  rw [h1, h2, List.nil_append]

/-- The electorate at unit-cell site `k`: the species `f` places at every
tile of site `k`. -/
theorem tiled_votesAt (k : ℕ) :
    votesAt (tiledInput a b sites M N tolSq bondSq sizeLimit inside chemOK f extra) k =
      ((tileIndices M N sites.length).filter fun t => decide (t.2.2 = k)).map
        fun t => (f t).species := by
  unfold votesAt
  simp only [tiledInput_points, tiledInput_atoms, tiledInput_tolSq]
  rw [List.filterMap_map]
  refine (List.filterMap_congr ?_).trans
    (filterMap_dguard_eq_map_filter (fun t => t.2.2 = k) (fun t => (f t).species) _)
  intro t ht
  obtain ⟨j, hj, hgj, hmatch⟩ :=
    tiled_ptMatch_get a b sites M N tolSq f extra htol hsep hf hextra ht
  show (if (tilePoint a b sites t).site = k then _ else none) = _
  by_cases hk : t.2.2 = k
  · rw [show (tilePoint a b sites t).site = t.2.2 from rfl, if_pos hk, if_pos hk, hmatch]
    rw [Option.map_some']
    congr 1
    rw [List.getD_append _ _ _ _ (by simpa using hj),
      getD_map f _ j hj _ (0, 0, 0), hgj]
  · rw [show (tilePoint a b sites t).site = t.2.2 from rfl, if_neg hk, if_neg hk]

/-- On a fully tiled sheet no vacancy is reported. -/
theorem tiled_vacancies :
    vacancies (tiledInput a b sites M N tolSq bondSq sizeLimit inside chemOK f extra) = [] := by
  unfold vacancies
  simp only [tiledInput_points, tiledInput_atoms, tiledInput_tolSq]
  apply filterMap_eq_nil_of_none
  intro pt hpt
  obtain ⟨t, ht, rfl⟩ := List.mem_map.mp hpt
  obtain ⟨j, hj, hgj, hmatch⟩ :=
    tiled_ptMatch_get a b sites M N tolSq f extra htol hsep hf hextra ht
  rw [hmatch]

/-- When `f` preserves the unit cell's species at every tile, no
substitution is reported. -/
theorem tiled_substitutions
    (hfs : ∀ t ∈ tileIndices M N sites.length, (f t).species = tileSpecies sites t) :
    substitutions (tiledInput a b sites M N tolSq bondSq sizeLimit inside chemOK f extra) =
      [] := by
  unfold substitutions
  apply filterMap_eq_nil_of_none
  intro j hjr
  have hjlen := List.mem_range.mp hjr
  rw [tiledInput_atoms, List.length_append, List.length_map] at hjlen
  unfold subRecOf
  by_cases hj : j < (tileIndices M N sites.length).length
  · rw [tiled_assignedTo a b sites M N tolSq bondSq sizeLimit inside chemOK f extra htol
      hsep hf hextra hj]
    have ht : (tileIndices M N sites.length).getD j (0, 0, 0) ∈ tileIndices M N sites.length :=
      getD_mem_of_lt _ j (0, 0, 0) hj
    have hspec :
        ((tiledInput a b sites M N tolSq bondSq sizeLimit inside chemOK f
          extra).atoms.getD j atomDefault).species =
          tileSpecies sites ((tileIndices M N sites.length).getD j (0, 0, 0)) := by
      rw [tiledInput_atoms, List.getD_append _ _ _ _ (by simpa using hj),
        getD_map f _ j hj _ (0, 0, 0)]
      exact hfs _ ht
    have hexp : expectedAt (tiledInput a b sites M N tolSq bondSq sizeLimit inside chemOK f
        extra) (tilePoint a b sites ((tileIndices M N sites.length).getD j (0, 0, 0))) =
        tileSpecies sites ((tileIndices M N sites.length).getD j (0, 0, 0)) := by
      unfold expectedAt
      rw [show (tilePoint a b sites ((tileIndices M N sites.length).getD j (0, 0, 0))).site =
        ((tileIndices M N sites.length).getD j (0, 0, 0)).2.2 from rfl]
      rw [tiled_votesAt a b sites M N tolSq bondSq sizeLimit inside chemOK f extra htol
        hsep hf hextra]
      rw [mode_all_eq _ (tileSpecies sites ((tileIndices M N sites.length).getD j (0, 0, 0)))]
      · rfl
      · refine List.mem_map.mpr ⟨(tileIndices M N sites.length).getD j (0, 0, 0), ?_, ?_⟩
        · rw [List.mem_filter]
          exact ⟨ht, by simp⟩
        · exact hfs _ ht
      · intro x hx
        obtain ⟨t', ht', rfl⟩ := List.mem_map.mp hx
        have ht'mem := (List.mem_filter.mp ht').1
        have ht'site : t'.2.2 = ((tileIndices M N sites.length).getD j (0, 0, 0)).2.2 := by
          have := (List.mem_filter.mp ht').2
          simpa using this
        rw [hfs _ ht'mem]
        unfold tileSpecies
        rw [ht'site]
    dsimp only
    rw [hspec, hexp]
    simp
  · rw [tiled_assignedTo_extra a b sites M N tolSq bondSq sizeLimit inside chemOK f extra
      htol hsep hf hextra (Nat.le_of_not_lt hj)]

/-- When every extra atom is outside the bulk containment test, there are
no interstitials, and the outside atoms are exactly the extra atoms. -/
theorem tiled_outside (hinside : ∀ x ∈ extra, inside x.pos = false) :
    interstitials (tiledInput a b sites M N tolSq bondSq sizeLimit inside chemOK f extra)
        = [] ∧
      outsideAtoms (tiledInput a b sites M N tolSq bondSq sizeLimit inside chemOK f extra) =
        (List.range extra.length).map ((tileIndices M N sites.length).length + ·) := by
  have hun := tiled_unassigned a b sites M N tolSq bondSq sizeLimit inside chemOK f extra
    htol hsep hf hextra
  have hpos : ∀ i < extra.length,
      (tiledInput a b sites M N tolSq bondSq sizeLimit inside chemOK f extra).insideTest
        (((tiledInput a b sites M N tolSq bondSq sizeLimit inside chemOK f
          extra).atoms.getD ((tileIndices M N sites.length).length + i) atomDefault).pos)
        = false := by
    intro i hi
    show inside _ = false
    rw [tiledInput_atoms, List.getD_append_right _ _ _ _
      (by rw [List.length_map]; exact Nat.le_add_right _ _)]
    rw [List.length_map, Nat.add_sub_cancel_left]
    exact hinside _ (getD_mem_of_lt extra i atomDefault hi)
  constructor
  · unfold interstitials
    rw [hun, List.filter_eq_nil_iff]
    intro j hjm
    obtain ⟨i, hil, rfl⟩ := List.mem_map.mp hjm
    rw [hpos i (List.mem_range.mp hil)]
    simp
  · unfold outsideAtoms
    rw [hun, List.filter_eq_self]
    intro j hjm
    obtain ⟨i, hil, rfl⟩ := List.mem_map.mp hjm
    rw [hpos i (List.mem_range.mp hil)]
    rfl

end TiledSheet

/-! ### Claim C3 — adsorbate detection -/

/-- C3: on a pristine tiled sheet with a bonded cluster of extra atoms that
match no lattice point, lie outside the bulk containment test, and pass
the size and chemical-similarity thresholds, classification emits exactly
one Adsorbate record whose index set is exactly the cluster's atom
indices, and no vacancy, substitution, interstitial or unknown records. -/
theorem c3_adsorbate_cluster (a b : Vec3) (sites : List (ℕ × Vec3)) (M N : ℕ)
    (tolSq bondSq : ℚ) (sizeLimit : ℕ) (inside : Vec3 → Bool) (chemOK : List ℕ → Bool)
    (cluster : List AtomRec)
    (htol : 0 ≤ tolSq) (hsep : TilesSeparated a b sites M N tolSq)
    (hfar : ∀ x ∈ cluster, ∀ t ∈ tileIndices M N sites.length,
      ¬ (distSq x.pos (tilePos a b sites t) ≤ tolSq))
    (hinside : ∀ x ∈ cluster, inside x.pos = false)
    (hne : cluster ≠ [])
    (hsize : cluster.length ≤ sizeLimit)
    (hchem : ∀ g, g.Perm ((List.range cluster.length).map
      ((tileIndices M N sites.length).length + ·)) → chemOK g = true)
    (hconn : ∀ x ∈ (List.range cluster.length).map
        ((tileIndices M N sites.length).length + ·),
      Relation.ReflTransGen
        (fun p q => bondAdj (tiledInput a b sites M N tolSq bondSq sizeLimit inside chemOK
          (tileAtom a b sites) cluster) p q = true ∧
          q ∈ (List.range cluster.length).map ((tileIndices M N sites.length).length + ·))
        ((tileIndices M N sites.length).length) x) :
    (adsScenario a b sites M N tolSq bondSq sizeLimit inside chemOK cluster).adsorbateGroups.length = 1 ∧
    (adsScenario a b sites M N tolSq bondSq sizeLimit inside chemOK cluster).adsorbates.Perm
      ((List.range cluster.length).map ((tileIndices M N sites.length).length + ·)) ∧
    (adsScenario a b sites M N tolSq bondSq sizeLimit inside chemOK cluster).vacancies = [] ∧
    (adsScenario a b sites M N tolSq bondSq sizeLimit inside chemOK cluster).substitutions = [] ∧
    (adsScenario a b sites M N tolSq bondSq sizeLimit inside chemOK cluster).interstitials = [] ∧
    (adsScenario a b sites M N tolSq bondSq sizeLimit inside chemOK cluster).unknowns = [] := by
  have hins : adsScenario a b sites M N tolSq bondSq sizeLimit inside chemOK cluster =
      classify_region (tiledInput a b sites M N tolSq bondSq sizeLimit inside chemOK
        (tileAtom a b sites) cluster) := rfl
  have hfpos : ∀ t ∈ tileIndices M N sites.length,
      (tileAtom a b sites t).pos = tilePos a b sites t := fun _ _ => rfl
  have hout := tiled_outside a b sites M N tolSq bondSq sizeLimit inside chemOK
    (tileAtom a b sites) cluster htol hsep hfpos hfar hinside
  -- the connected components of the cluster
  obtain ⟨c0, crest, hcluster⟩ : ∃ c0 crest, cluster = c0 :: crest := by
    cases cluster with
    | nil => exact absurd rfl hne
    | cons c0 crest => exact ⟨c0, crest, rfl⟩
  have huniv : (List.range cluster.length).map ((tileIndices M N sites.length).length + ·) =
      (tileIndices M N sites.length).length ::
        (List.range crest.length).map
          (fun x => (tileIndices M N sites.length).length + (x + 1)) := by
    rw [hcluster]
    rw [show (c0 :: crest).length = crest.length + 1 from rfl, List.range_succ_eq_map]
    simp [List.map_map, Function.comp_def, Nat.succ_eq_add_one]
  have hnduniv : ((List.range cluster.length).map
      ((tileIndices M N sites.length).length + ·)).Nodup :=
    (List.nodup_range cluster.length).map fun x y h => by omega
  have hcomp : ∃ g,
      componentsOf (bondAdj (tiledInput a b sites M N tolSq bondSq sizeLimit inside chemOK
          (tileAtom a b sites) cluster))
        ((List.range cluster.length).map ((tileIndices M N sites.length).length + ·)).length
        ((List.range cluster.length).map ((tileIndices M N sites.length).length + ·)) = [g] ∧
      g.Perm ((List.range cluster.length).map ((tileIndices M N sites.length).length + ·)) := by
    rw [huniv] at hnduniv hconn ⊢
    have := componentsOf_connected
      (bondAdj (tiledInput a b sites M N tolSq bondSq sizeLimit inside chemOK
        (tileAtom a b sites) cluster))
      ((tileIndices M N sites.length).length)
      ((List.range crest.length).map (fun x => (tileIndices M N sites.length).length + (x + 1)))
      hnduniv hconn
    exact this
  obtain ⟨g, hg, hgperm⟩ := hcomp
  have hgroups : regionGroups (tiledInput a b sites M N tolSq bondSq sizeLimit inside chemOK
      (tileAtom a b sites) cluster) = [g] := by
    unfold regionGroups
    rw [hout.2]
    exact hg
  have hadsg : adsorbateGroups (tiledInput a b sites M N tolSq bondSq sizeLimit inside chemOK
      (tileAtom a b sites) cluster) = [g] := by
    unfold adsorbateGroups
    rw [hgroups, List.filter_cons]
    rw [if_pos ?_, List.filter_nil]
    rw [Bool.and_eq_true]
    constructor
    · have : g.length = cluster.length := by
        rw [hgperm.length_eq, List.length_map, List.length_range]
      rw [this]
      simpa using hsize
    · exact hchem g hgperm
  have hads : adsorbates (tiledInput a b sites M N tolSq bondSq sizeLimit inside chemOK
      (tileAtom a b sites) cluster) = g := by
    unfold adsorbates
    rw [hadsg]
    simp
  refine ⟨?_, ?_, ?_, ?_, ?_, ?_⟩
  · rw [hins]
    show (adsorbateGroups _).length = 1
    rw [hadsg]
    rfl
  · rw [hins]
    show (adsorbates _).Perm _
    rw [hads]
    exact hgperm
  · rw [hins]
    show vacancies _ = []
    exact tiled_vacancies a b sites M N tolSq bondSq sizeLimit inside chemOK
      (tileAtom a b sites) cluster htol hsep hfpos hfar
  · rw [hins]
    show substitutions _ = []
    exact tiled_substitutions a b sites M N tolSq bondSq sizeLimit inside chemOK
      (tileAtom a b sites) cluster htol hsep hfpos hfar (fun _ _ => rfl)
  · rw [hins]
    show interstitials _ = []
    exact hout.1
  · rw [hins]
    show unknowns _ = []
    unfold unknowns
    rw [hout.2, hads, List.filter_eq_nil_iff]
    intro j hj
    have : j ∈ g := hgperm.mem_iff.mpr hj
    simp [List.contains, this]

theorem c3_adsorbate_cluster_witness :
    ((0 : ℚ) ≤ 0) ∧
      ((adsScenario ((10 : ℚ), 0, 0) ((0 : ℚ), 10, 0) [(26, ((0 : ℚ), (0 : ℚ), (0 : ℚ)))] 1 1
          0 1 3 (fun _ => false) (fun _ => true) [⟨1, ((0 : ℚ), (0 : ℚ), (5 : ℚ))⟩]).adsorbateGroups.length = 1 ∧
        (adsScenario ((10 : ℚ), 0, 0) ((0 : ℚ), 10, 0) [(26, ((0 : ℚ), (0 : ℚ), (0 : ℚ)))] 1 1
          0 1 3 (fun _ => false) (fun _ => true) [⟨1, ((0 : ℚ), (0 : ℚ), (5 : ℚ))⟩]).adsorbates.Perm
          ((List.range ([⟨1, ((0 : ℚ), (0 : ℚ), (5 : ℚ))⟩] : List AtomRec).length).map
            ((tileIndices 1 1 ([(26, ((0 : ℚ), (0 : ℚ), (0 : ℚ)))] : List (ℕ × Vec3)).length).length + ·)) ∧
        (adsScenario ((10 : ℚ), 0, 0) ((0 : ℚ), 10, 0) [(26, ((0 : ℚ), (0 : ℚ), (0 : ℚ)))] 1 1
          0 1 3 (fun _ => false) (fun _ => true) [⟨1, ((0 : ℚ), (0 : ℚ), (5 : ℚ))⟩]).vacancies = [] ∧
        (adsScenario ((10 : ℚ), 0, 0) ((0 : ℚ), 10, 0) [(26, ((0 : ℚ), (0 : ℚ), (0 : ℚ)))] 1 1
          0 1 3 (fun _ => false) (fun _ => true) [⟨1, ((0 : ℚ), (0 : ℚ), (5 : ℚ))⟩]).substitutions = [] ∧
        (adsScenario ((10 : ℚ), 0, 0) ((0 : ℚ), 10, 0) [(26, ((0 : ℚ), (0 : ℚ), (0 : ℚ)))] 1 1
          0 1 3 (fun _ => false) (fun _ => true) [⟨1, ((0 : ℚ), (0 : ℚ), (5 : ℚ))⟩]).interstitials = [] ∧
        (adsScenario ((10 : ℚ), 0, 0) ((0 : ℚ), 10, 0) [(26, ((0 : ℚ), (0 : ℚ), (0 : ℚ)))] 1 1
          0 1 3 (fun _ => false) (fun _ => true) [⟨1, ((0 : ℚ), (0 : ℚ), (5 : ℚ))⟩]).unknowns = []) :=
  ⟨le_refl 0,
    c3_adsorbate_cluster ((10 : ℚ), 0, 0) ((0 : ℚ), 10, 0) [(26, ((0 : ℚ), (0 : ℚ), (0 : ℚ)))] 1 1
      0 1 3 (fun _ => false) (fun _ => true) [⟨1, ((0 : ℚ), (0 : ℚ), (5 : ℚ))⟩]
      (by decide) (by unfold TilesSeparated; decide) (by decide) (fun _ _ => rfl)
      (by decide) (by decide) (fun _ _ => rfl)
      (by
        intro x hx
        obtain ⟨i, hi, rfl⟩ := List.mem_map.mp hx
        have hi1 : i < 1 := by simpa using List.mem_range.mp hi
        have hi0 : i = 0 := by omega
        subst hi0
        exact Relation.ReflTransGen.refl)⟩

/-! ### Claim C2 — vacancy and substitution detection -/

theorem two_le_length_of_two_mem {α : Type} [DecidableEq α] {l : List α} {x y : α}
    (hx : x ∈ l) (hy : y ∈ l) (hne : x ≠ y) : 2 ≤ l.length := by
  have hy' : y ∈ l.erase x := List.mem_erase_of_ne (fun h => hne h.symm) |>.mpr hy
  have h1 : 1 ≤ (l.erase x).length := List.length_pos.mpr (List.ne_nil_of_mem hy')
  have h2 : (l.erase x).length = l.length - 1 := List.length_erase_of_mem hx
  have h3 : 1 ≤ l.length := List.length_pos.mpr (List.ne_nil_of_mem hx)
  omega

theorem two_le_countP {α : Type} [DecidableEq α] (p : α → Bool) (l : List α) {x y : α}
    (hx : x ∈ l) (hy : y ∈ l) (hne : x ≠ y) (hpx : p x = true) (hpy : p y = true) :
    2 ≤ l.countP p := by
  rw [List.countP_eq_length_filter]
  exact two_le_length_of_two_mem (List.mem_filter.mpr ⟨hx, hpx⟩)
    (List.mem_filter.mpr ⟨hy, hpy⟩) hne

theorem count_eq_one_of_nodup {α : Type} [DecidableEq α] {l : List α} (hnd : l.Nodup)
    {x : α} (hx : x ∈ l) : l.count x = 1 := by
  have h1 : l.count x ≤ 1 := List.nodup_iff_count_le_one.mp hnd x
  have h2 : 0 < l.count x := List.count_pos_iff.mpr hx
  omega

theorem countP_eq_one_of_nodup {α : Type} [DecidableEq α] {l : List α} (hnd : l.Nodup)
    {x : α} (hx : x ∈ l) : (l.countP fun y => decide (y = x)) = 1 := by
  induction l with
  | nil => simp at hx
  | cons a rest ih =>
    rw [List.countP_cons]
    by_cases hax : a = x
    · subst hax
      have hnotin : a ∉ rest := (List.nodup_cons.mp hnd).1
      have hzero : (rest.countP fun y => decide (y = a)) = 0 := by
        rw [List.countP_eq_zero]
        intro y hy
        simp only [decide_eq_true_eq]
        intro h
        exact hnotin (h ▸ hy)
      rw [hzero]
      simp
    · have hxrest : x ∈ rest := by
        rcases List.mem_cons.mp hx with h | h
        · exact absurd h.symm hax
        · exact h
      rw [ih (List.nodup_cons.mp hnd).2 hxrest]
      simp [hax]

theorem count_map_eq_countP {α β : Type} [DecidableEq β] (f : α → β) (l : List α) (c : β) :
    (l.map f).count c = l.countP fun t => f t == c := by
  rw [List.count, List.countP_map]
  rfl

theorem substAtom_pos (a b : Vec3) (sites : List (ℕ × Vec3)) (t0 : ℕ × ℕ × ℕ) (newSp : ℕ)
    (t : ℕ × ℕ × ℕ) : (substAtom a b sites t0 newSp t).pos = tilePos a b sites t := by
  unfold substAtom
  by_cases h : t = t0
  · rw [if_pos h]
  · rw [if_neg h]
    rfl

theorem substAtom_species (a b : Vec3) (sites : List (ℕ × Vec3)) (t0 : ℕ × ℕ × ℕ)
    (newSp : ℕ) (t : ℕ × ℕ × ℕ) :
    (substAtom a b sites t0 newSp t).species =
      if t = t0 then newSp else tileSpecies sites t := by
  unfold substAtom
  by_cases h : t = t0
  · rw [if_pos h, if_pos h]
  · rw [if_neg h, if_neg h]
    rfl

/-- Species at a tile depends only on the unit-cell site. -/
theorem tileSpecies_site (sites : List (ℕ × Vec3)) {t : ℕ × ℕ × ℕ} {k : ℕ}
    (h : t.2.2 = k) : tileSpecies sites t = (sites.getD k (0, (0, 0, 0))).1 := by
  unfold tileSpecies
  rw [h]

/-- Two tiles of the same unit-cell site as `t0`, both distinct from `t0`
and from each other (available as soon as the sheet is at least 3 wide). -/
theorem sibling_tiles (M N S : ℕ) (hM : 3 ≤ M) {t0 : ℕ × ℕ × ℕ}
    (ht0 : t0 ∈ tileIndices M N S) :
    ∃ w1 w2, w1 ∈ tileIndices M N S ∧ w2 ∈ tileIndices M N S ∧
      w1.2.2 = t0.2.2 ∧ w2.2.2 = t0.2.2 ∧ w1 ≠ t0 ∧ w2 ≠ t0 ∧ w1 ≠ w2 := by
  obtain ⟨hi, hj, hk⟩ := mem_tileIndices.mp ht0
  refine ⟨(if t0.1 = 0 then 1 else 0, t0.2.1, t0.2.2),
    (if t0.1 ≤ 1 then 2 else 1, t0.2.1, t0.2.2), ?_, ?_, rfl, rfl, ?_, ?_, ?_⟩
  · rw [mem_tileIndices]
    refine ⟨?_, hj, hk⟩
    by_cases h : t0.1 = 0 <;> simp [h] <;> omega
  · rw [mem_tileIndices]
    refine ⟨?_, hj, hk⟩
    by_cases h : t0.1 ≤ 1 <;> simp [h] <;> omega
  · intro h
    have := congrArg Prod.fst h
    by_cases h0 : t0.1 = 0 <;> simp [h0] at this <;> omega
  · intro h
    have := congrArg Prod.fst h
    by_cases h0 : t0.1 ≤ 1 <;> simp [h0] at this <;> omega
  · intro h
    have := congrArg Prod.fst h
    by_cases h0 : t0.1 = 0 <;> by_cases h1 : t0.1 ≤ 1 <;> simp [h0, h1] at this <;> omega

/-- With no extra atoms, every atom is assigned: no interstitial, adsorbate
or unknown records arise. -/
theorem tiled_no_extra (a b : Vec3) (sites : List (ℕ × Vec3)) (M N : ℕ)
    (tolSq bondSq : ℚ) (sizeLimit : ℕ) (inside : Vec3 → Bool) (chemOK : List ℕ → Bool)
    (f : (ℕ × ℕ × ℕ) → AtomRec)
    (htol : 0 ≤ tolSq) (hsep : TilesSeparated a b sites M N tolSq)
    (hf : ∀ t ∈ tileIndices M N sites.length, (f t).pos = tilePos a b sites t) :
    unassigned (tiledInput a b sites M N tolSq bondSq sizeLimit inside chemOK f []) = [] ∧
    interstitials (tiledInput a b sites M N tolSq bondSq sizeLimit inside chemOK f []) = [] ∧
    adsorbateGroups (tiledInput a b sites M N tolSq bondSq sizeLimit inside chemOK f []) = [] ∧
    adsorbates (tiledInput a b sites M N tolSq bondSq sizeLimit inside chemOK f []) = [] ∧
    unknowns (tiledInput a b sites M N tolSq bondSq sizeLimit inside chemOK f []) = [] := by
  have hextra : ∀ x ∈ ([] : List AtomRec), ∀ t ∈ tileIndices M N sites.length,
      ¬ (distSq x.pos (tilePos a b sites t) ≤ tolSq) := fun x hx => absurd hx (List.not_mem_nil x)
  have hun : unassigned (tiledInput a b sites M N tolSq bondSq sizeLimit inside chemOK f [])
      = [] := by
    have := tiled_unassigned a b sites M N tolSq bondSq sizeLimit inside chemOK f []
      htol hsep hf hextra
    simpa using this
  have hout : outsideAtoms (tiledInput a b sites M N tolSq bondSq sizeLimit inside chemOK
      f []) = [] := by
    unfold outsideAtoms
    rw [hun]
    rfl
  have hgroups : regionGroups (tiledInput a b sites M N tolSq bondSq sizeLimit inside chemOK
      f []) = [] := by
    unfold regionGroups
    rw [hout]
    rfl
  have hadsg : adsorbateGroups (tiledInput a b sites M N tolSq bondSq sizeLimit inside
      chemOK f []) = [] := by
    unfold adsorbateGroups
    rw [hgroups]
    rfl
  refine ⟨hun, ?_, hadsg, ?_, ?_⟩
  · unfold interstitials
    rw [hun]
    rfl
  · unfold adsorbates
    rw [hadsg]
    rfl
  · unfold unknowns
    rw [hout]
    rfl

/-- In the substitution scenario, the majority vote at the changed tile's
site still elects the original species. -/
theorem subst_mode_k0 (a b : Vec3) (sites : List (ℕ × Vec3)) (M N : ℕ)
    (tolSq bondSq : ℚ) (sizeLimit : ℕ) (inside : Vec3 → Bool) (chemOK : List ℕ → Bool)
    (t0 : ℕ × ℕ × ℕ) (newSp : ℕ)
    (htol : 0 ≤ tolSq) (hsep : TilesSeparated a b sites M N tolSq)
    (hM : 3 ≤ M) (ht0 : t0 ∈ tileIndices M N sites.length)
    (hnew : newSp ≠ tileSpecies sites t0) :
    mode (votesAt (tiledInput a b sites M N tolSq bondSq sizeLimit inside chemOK
      (substAtom a b sites t0 newSp) []) t0.2.2) = some (tileSpecies sites t0) := by
  have hextra : ∀ x ∈ ([] : List AtomRec), ∀ t ∈ tileIndices M N sites.length,
      ¬ (distSq x.pos (tilePos a b sites t) ≤ tolSq) := fun x hx => absurd hx (List.not_mem_nil x)
  rw [tiled_votesAt a b sites M N tolSq bondSq sizeLimit inside chemOK
    (substAtom a b sites t0 newSp) [] htol hsep
    (fun t _ => substAtom_pos a b sites t0 newSp t) hextra]
  obtain ⟨w1, w2, hw1m, hw2m, hw1k, hw2k, hw1ne, hw2ne, hww⟩ :=
    sibling_tiles M N sites.length hM ht0
  have hndK : ((tileIndices M N sites.length).filter fun t => decide (t.2.2 = t0.2.2)).Nodup :=
    (tileIndices_nodup M N sites.length).filter _
  have hmemK : ∀ t, t ∈ ((tileIndices M N sites.length).filter
      fun t => decide (t.2.2 = t0.2.2)) ↔
      t ∈ tileIndices M N sites.length ∧ t.2.2 = t0.2.2 := by
    intro t
    rw [List.mem_filter]
    simp
  have hspec : ∀ t, t.2.2 = t0.2.2 → t ≠ t0 →
      (substAtom a b sites t0 newSp t).species = tileSpecies sites t0 := by
    intro t hk hne
    rw [substAtom_species, if_neg hne, tileSpecies_site sites hk,
      tileSpecies_site sites rfl]
  apply mode_majority
  · refine List.mem_map.mpr ⟨w1, (hmemK w1).mpr ⟨hw1m, hw1k⟩, hspec w1 hw1k hw1ne⟩
  · intro x hx hxs
    obtain ⟨t, htK, hxval⟩ := List.mem_map.mp hx
    obtain ⟨htm, htk⟩ := (hmemK t).mp htK
    have hxnew : x = newSp := by
      by_cases hne : t = t0
      · rw [← hxval, hne, substAtom_species, if_pos rfl]
      · exact absurd (hxval ▸ (hspec t htk hne).symm).symm hxs
    have hcount1 : (((tileIndices M N sites.length).filter
        fun t => decide (t.2.2 = t0.2.2)).map
          fun t => (substAtom a b sites t0 newSp t).species).count newSp = 1 := by
      rw [count_map_eq_countP]
      have hcc : List.countP
          (fun t => (substAtom a b sites t0 newSp t).species == newSp)
          ((tileIndices M N sites.length).filter fun t => decide (t.2.2 = t0.2.2)) =
          List.countP (fun t => decide (t = t0))
          ((tileIndices M N sites.length).filter fun t => decide (t.2.2 = t0.2.2)) := by
        apply List.countP_congr
        intro t' ht'
        obtain ⟨ht'm, ht'k⟩ := (hmemK t').mp ht'
        by_cases hne : t' = t0
        · subst hne
          rw [substAtom_species, if_pos rfl]
          simp
        · rw [hspec t' ht'k hne]
          constructor
          · intro h
            have heq : tileSpecies sites t0 = newSp := by simpa using h
            exact absurd heq.symm hnew
          · intro h
            have heq : t' = t0 := by simpa using h
            exact absurd heq hne
      rw [hcc]
      exact countP_eq_one_of_nodup hndK ((hmemK t0).mpr ⟨ht0, rfl⟩)
    have hcount2 : 2 ≤ (((tileIndices M N sites.length).filter
        fun t => decide (t.2.2 = t0.2.2)).map
          fun t => (substAtom a b sites t0 newSp t).species).count (tileSpecies sites t0) := by
      rw [count_map_eq_countP]
      refine two_le_countP _ _ ((hmemK w1).mpr ⟨hw1m, hw1k⟩) ((hmemK w2).mpr ⟨hw2m, hw2k⟩)
        hww ?_ ?_
      · rw [hspec w1 hw1k hw1ne]
        simp
      · rw [hspec w2 hw2k hw2ne]
        simp
    rw [hxnew]
    omega

/-- In the substitution scenario the expected species of every lattice
point is the unit cell's species. -/
theorem subst_expected (a b : Vec3) (sites : List (ℕ × Vec3)) (M N : ℕ)
    (tolSq bondSq : ℚ) (sizeLimit : ℕ) (inside : Vec3 → Bool) (chemOK : List ℕ → Bool)
    (t0 : ℕ × ℕ × ℕ) (newSp : ℕ)
    (htol : 0 ≤ tolSq) (hsep : TilesSeparated a b sites M N tolSq)
    (hM : 3 ≤ M) (ht0 : t0 ∈ tileIndices M N sites.length)
    (hnew : newSp ≠ tileSpecies sites t0)
    {t : ℕ × ℕ × ℕ} (ht : t ∈ tileIndices M N sites.length) :
    expectedAt (tiledInput a b sites M N tolSq bondSq sizeLimit inside chemOK
      (substAtom a b sites t0 newSp) []) (tilePoint a b sites t) = tileSpecies sites t := by
  have hextra : ∀ x ∈ ([] : List AtomRec), ∀ t ∈ tileIndices M N sites.length,
      ¬ (distSq x.pos (tilePos a b sites t) ≤ tolSq) := fun x hx => absurd hx (List.not_mem_nil x)
  unfold expectedAt
  rw [show (tilePoint a b sites t).site = t.2.2 from rfl,
    show (tilePoint a b sites t).expSpecies = tileSpecies sites t from rfl]
  by_cases hk : t.2.2 = t0.2.2
  · rw [hk, subst_mode_k0 a b sites M N tolSq bondSq sizeLimit inside chemOK t0 newSp
      htol hsep hM ht0 hnew]
    rw [Option.getD_some, tileSpecies_site sites hk, tileSpecies_site sites rfl]
  · rw [tiled_votesAt a b sites M N tolSq bondSq sizeLimit inside chemOK
      (substAtom a b sites t0 newSp) [] htol hsep
      (fun t' _ => substAtom_pos a b sites t0 newSp t') hextra]
    rw [mode_all_eq _ (tileSpecies sites t)]
    · rfl
    · refine List.mem_map.mpr ⟨t, List.mem_filter.mpr ⟨ht, by simp⟩, ?_⟩
      rw [substAtom_species, if_neg]
      intro h
      exact hk (h ▸ rfl)
    · intro x hx
      obtain ⟨t', ht', rfl⟩ := List.mem_map.mp hx
      have ht'k : t'.2.2 = t.2.2 := by
        have := (List.mem_filter.mp ht').2
        simpa using this
      rw [substAtom_species, if_neg (by
          intro h
          apply hk
          rw [← h]
          exact ht'k.symm),
        tileSpecies_site sites ht'k, tileSpecies_site sites rfl]

/-- In the substitution scenario exactly one Substitution record is
emitted: the changed atom's index, the original species, the new one. -/
theorem subst_substitutions (a b : Vec3) (sites : List (ℕ × Vec3)) (M N : ℕ)
    (tolSq bondSq : ℚ) (sizeLimit : ℕ) (inside : Vec3 → Bool) (chemOK : List ℕ → Bool)
    (d : ℕ) (newSp : ℕ)
    (htol : 0 ≤ tolSq) (hsep : TilesSeparated a b sites M N tolSq)
    (hM : 3 ≤ M) (hd : d < (tileIndices M N sites.length).length)
    (hnew : newSp ≠ tileSpecies sites ((tileIndices M N sites.length).getD d (0, 0, 0))) :
    substitutions (tiledInput a b sites M N tolSq bondSq sizeLimit inside chemOK
      (substAtom a b sites ((tileIndices M N sites.length).getD d (0, 0, 0)) newSp) []) =
      [(d, tileSpecies sites ((tileIndices M N sites.length).getD d (0, 0, 0)), newSp)] := by
  have hextra : ∀ x ∈ ([] : List AtomRec), ∀ t ∈ tileIndices M N sites.length,
      ¬ (distSq x.pos (tilePos a b sites t) ≤ tolSq) := fun x hx => absurd hx (List.not_mem_nil x)
  have ht0 : (tileIndices M N sites.length).getD d (0, 0, 0) ∈ tileIndices M N sites.length :=
    getD_mem_of_lt _ d (0, 0, 0) hd
  have hfpos : ∀ t ∈ tileIndices M N sites.length,
      (substAtom a b sites ((tileIndices M N sites.length).getD d (0, 0, 0)) newSp t).pos =
        tilePos a b sites t := fun t _ => substAtom_pos a b sites _ newSp t
  unfold substitutions
  rw [show (tiledInput a b sites M N tolSq bondSq sizeLimit inside chemOK
      (substAtom a b sites ((tileIndices M N sites.length).getD d (0, 0, 0)) newSp)
      []).atoms.length = (tileIndices M N sites.length).length by
    rw [tiledInput_atoms, List.length_append, List.length_map]
    rfl]
  apply filterMap_eq_singleton_of_unique _ _ d _ (List.nodup_range _)
    (List.mem_range.mpr hd)
  · unfold subRecOf
    rw [tiled_assignedTo a b sites M N tolSq bondSq sizeLimit inside chemOK _ [] htol hsep
      hfpos hextra hd]
    dsimp only
    rw [subst_expected a b sites M N tolSq bondSq sizeLimit inside chemOK _ newSp htol hsep
      hM ht0 hnew ht0]
    have hspec : ((tiledInput a b sites M N tolSq bondSq sizeLimit inside chemOK
        (substAtom a b sites ((tileIndices M N sites.length).getD d (0, 0, 0)) newSp)
        []).atoms.getD d atomDefault).species = newSp := by
      rw [tiledInput_atoms, List.getD_append _ _ _ _ (by simpa using hd),
        getD_map _ _ d hd _ (0, 0, 0), substAtom_species, if_pos rfl]
    rw [hspec, if_neg hnew]
  · intro j hjr hne
    have hj : j < (tileIndices M N sites.length).length := List.mem_range.mp hjr
    unfold subRecOf
    rw [tiled_assignedTo a b sites M N tolSq bondSq sizeLimit inside chemOK _ [] htol hsep
      hfpos hextra hj]
    dsimp only
    have htj : (tileIndices M N sites.length).getD j (0, 0, 0) ∈ tileIndices M N sites.length :=
      getD_mem_of_lt _ j (0, 0, 0) hj
    have htne : (tileIndices M N sites.length).getD j (0, 0, 0) ≠
        (tileIndices M N sites.length).getD d (0, 0, 0) := by
      intro h
      exact hne (nodup_getD_inj _ (tileIndices_nodup M N sites.length) (0, 0, 0) hj hd h)
    rw [subst_expected a b sites M N tolSq bondSq sizeLimit inside chemOK _ newSp htol hsep
      hM ht0 hnew htj]
    have hspec : ((tiledInput a b sites M N tolSq bondSq sizeLimit inside chemOK
        (substAtom a b sites ((tileIndices M N sites.length).getD d (0, 0, 0)) newSp)
        []).atoms.getD j atomDefault).species =
        tileSpecies sites ((tileIndices M N sites.length).getD j (0, 0, 0)) := by
      rw [tiledInput_atoms, List.getD_append _ _ _ _ (by simpa using hj),
        getD_map _ _ j hj _ (0, 0, 0), substAtom_species, if_neg htne]
    rw [hspec, if_pos rfl]

/-- Any region input with no unassigned atom emits no interstitial,
adsorbate or unknown records. -/
theorem rest_empty_of_unassigned_nil (inp : RegionInput) (h : unassigned inp = []) :
    interstitials inp = [] ∧ adsorbateGroups inp = [] ∧ adsorbates inp = [] ∧
      unknowns inp = [] := by
  have hout : outsideAtoms inp = [] := by
    unfold outsideAtoms
    rw [h]
    rfl
  have hgroups : regionGroups inp = [] := by
    unfold regionGroups
    rw [hout]
    rfl
  have hadsg : adsorbateGroups inp = [] := by
    unfold adsorbateGroups
    rw [hgroups]
    rfl
  refine ⟨?_, hadsg, ?_, ?_⟩
  · unfold interstitials
    rw [h]
    rfl
  · unfold adsorbates
    rw [hadsg]
    rfl
  · unfold unknowns
    rw [hout]
    rfl

section VacancyScenario

variable (a b : Vec3) (sites : List (ℕ × Vec3)) (M N : ℕ) (tolSq bondSq : ℚ)
variable (sizeLimit : ℕ) (inside : Vec3 → Bool) (chemOK : List ℕ → Bool)
variable (t0 : ℕ × ℕ × ℕ)
variable (htol : 0 ≤ tolSq) (hsep : TilesSeparated a b sites M N tolSq)
variable (ht0 : t0 ∈ tileIndices M N sites.length)

theorem vacancyInput_atoms :
    (vacancyInput a b sites M N tolSq bondSq sizeLimit inside chemOK t0).atoms =
      ((tileIndices M N sites.length).erase t0).map (tileAtom a b sites) := rfl

theorem vacancyInput_points :
    (vacancyInput a b sites M N tolSq bondSq sizeLimit inside chemOK t0).points =
      (tileIndices M N sites.length).map (tilePoint a b sites) := rfl

theorem vacancyInput_tolSq :
    (vacancyInput a b sites M N tolSq bondSq sizeLimit inside chemOK t0).tolSq = tolSq := rfl

include htol hsep ht0

theorem erased_ptMatch_get {t : ℕ × ℕ × ℕ} (ht : t ∈ tileIndices M N sites.length)
    (hne : t ≠ t0) :
    ∃ j, j < ((tileIndices M N sites.length).erase t0).length ∧
      ((tileIndices M N sites.length).erase t0).getD j (0, 0, 0) = t ∧
      ptMatch (((tileIndices M N sites.length).erase t0).map (tileAtom a b sites)) tolSq
        (tilePoint a b sites t) = some j := by
  have htE : t ∈ (tileIndices M N sites.length).erase t0 :=
    ((tileIndices_nodup M N sites.length).mem_erase_iff).mpr ⟨hne, ht⟩
  obtain ⟨j, hj, hget⟩ := List.getElem_of_mem htE
  have hgj : ((tileIndices M N sites.length).erase t0).getD j (0, 0, 0) = t := by
    rw [List.getD_eq_getElem _ _ hj]
    exact hget
  refine ⟨j, hj, hgj, ?_⟩
  exact firstHit_tiles_some a b sites M N tolSq htol hsep _ (tileAtom a b sites)
    (fun _ _ => rfl) (fun t' ht' => List.erase_subset _ _ ht')
    ((tileIndices_nodup M N sites.length).erase t0) ht j hj hgj

theorem erased_ptMatch_t0 :
    ptMatch (((tileIndices M N sites.length).erase t0).map (tileAtom a b sites)) tolSq
      (tilePoint a b sites t0) = none := by
  apply firstHit_tiles_none a b sites M N tolSq hsep _ (tileAtom a b sites)
    (fun _ _ => rfl) (fun t' ht' => List.erase_subset _ _ ht') ht0 ?_ htol
  intro hmem
  have := ((tileIndices_nodup M N sites.length).mem_erase_iff).mp hmem
  exact this.1 rfl

theorem erased_assignedTo {j : ℕ} (hj : j < ((tileIndices M N sites.length).erase t0).length) :
    assignedTo (vacancyInput a b sites M N tolSq bondSq sizeLimit inside chemOK t0) j =
      some (tilePoint a b sites
        (((tileIndices M N sites.length).erase t0).getD j (0, 0, 0))) := by
  have htj : ((tileIndices M N sites.length).erase t0).getD j (0, 0, 0) ∈
      (tileIndices M N sites.length).erase t0 := getD_mem_of_lt _ j (0, 0, 0) hj
  have htjm : ((tileIndices M N sites.length).erase t0).getD j (0, 0, 0) ∈
      tileIndices M N sites.length := List.erase_subset _ _ htj
  have htjne : ((tileIndices M N sites.length).erase t0).getD j (0, 0, 0) ≠ t0 :=
    (((tileIndices_nodup M N sites.length).mem_erase_iff).mp htj).1
  unfold assignedTo
  simp only [vacancyInput_points, vacancyInput_atoms, vacancyInput_tolSq]
  apply find?_eq_some_of_unique
  · exact List.mem_map.mpr ⟨_, htjm, rfl⟩
  · obtain ⟨j', hj', hgj', hmatch⟩ :=
      erased_ptMatch_get a b sites M N tolSq t0 htol hsep ht0 htjm htjne
    have : j' = j := nodup_getD_inj _ ((tileIndices_nodup M N sites.length).erase t0)
      (0, 0, 0) hj' hj hgj'
    rw [hmatch, this]
    simp
  · intro y hy hpy
    obtain ⟨t', ht', rfl⟩ := List.mem_map.mp hy
    by_cases hne : t' = t0
    · rw [hne, erased_ptMatch_t0 a b sites M N tolSq t0 htol hsep ht0] at hpy
      simp at hpy
    · obtain ⟨j', hj', hgj', hmatch⟩ :=
        erased_ptMatch_get a b sites M N tolSq t0 htol hsep ht0 ht' hne
      rw [hmatch] at hpy
      have : j' = j := by simpa using hpy
      rw [← hgj', this]

theorem erased_unassigned :
    unassigned (vacancyInput a b sites M N tolSq bondSq sizeLimit inside chemOK t0) = [] := by
  unfold unassigned
  rw [List.filter_eq_nil_iff]
  intro j hjr
  have hj : j < ((tileIndices M N sites.length).erase t0).length := by
    have := List.mem_range.mp hjr
    rw [vacancyInput_atoms, List.length_map] at this
    exact this
  rw [erased_assignedTo a b sites M N tolSq bondSq sizeLimit inside chemOK t0 htol hsep
    ht0 hj]
  simp

theorem erased_votesAt (k : ℕ) :
    votesAt (vacancyInput a b sites M N tolSq bondSq sizeLimit inside chemOK t0) k =
      ((tileIndices M N sites.length).filter fun t => decide (t.2.2 = k ∧ t ≠ t0)).map
        (tileSpecies sites) := by
  unfold votesAt
  simp only [vacancyInput_points, vacancyInput_atoms, vacancyInput_tolSq]
  rw [List.filterMap_map]
  refine (List.filterMap_congr ?_).trans
    (filterMap_dguard_eq_map_filter (fun t => t.2.2 = k ∧ t ≠ t0) (tileSpecies sites) _)
  intro t ht
  show (if (tilePoint a b sites t).site = k then _ else none) = _
  rw [show (tilePoint a b sites t).site = t.2.2 from rfl]
  by_cases hne : t = t0
  · subst hne
    rw [erased_ptMatch_t0 a b sites M N tolSq t htol hsep ht0]
    by_cases hk : t.2.2 = k
    · rw [if_pos hk, if_neg (by simp)]
      rfl
    · rw [if_neg hk, if_neg (by simp [hk])]
  · obtain ⟨j, hj, hgj, hmatch⟩ :=
      erased_ptMatch_get a b sites M N tolSq t0 htol hsep ht0 ht hne
    by_cases hk : t.2.2 = k
    · rw [if_pos hk, if_pos ⟨hk, hne⟩, hmatch, Option.map_some']
      congr 1
      rw [getD_map _ _ j hj _ (0, 0, 0), hgj]
      rfl
    · rw [if_neg hk, if_neg (by simp [hk])]

/-- The expected species at every lattice point of the punctured sheet is
still the unit cell's species (the equivalent occupied sites elect it). -/
theorem erased_expected (hM : 3 ≤ M) {t : ℕ × ℕ × ℕ}
    (ht : t ∈ tileIndices M N sites.length) :
    expectedAt (vacancyInput a b sites M N tolSq bondSq sizeLimit inside chemOK t0)
      (tilePoint a b sites t) = tileSpecies sites t := by
  unfold expectedAt
  rw [show (tilePoint a b sites t).site = t.2.2 from rfl,
    show (tilePoint a b sites t).expSpecies = tileSpecies sites t from rfl]
  rw [erased_votesAt a b sites M N tolSq bondSq sizeLimit inside chemOK t0 htol hsep ht0]
  obtain ⟨w, hwm, hwk, hwne⟩ : ∃ w, w ∈ tileIndices M N sites.length ∧ w.2.2 = t.2.2 ∧
      w ≠ t0 := by
    by_cases hne : t = t0
    · obtain ⟨w1, _, hw1m, _, hw1k, _, hw1ne, _, _⟩ :=
        sibling_tiles M N sites.length hM ht0
      exact ⟨w1, hw1m, by rw [hw1k, hne], hw1ne⟩
    · exact ⟨t, ht, rfl, hne⟩
  rw [mode_all_eq _ (tileSpecies sites t)]
  · rfl
  · refine List.mem_map.mpr ⟨w, List.mem_filter.mpr ⟨hwm, by simp [hwk, hwne]⟩, ?_⟩
    rw [tileSpecies_site sites hwk, tileSpecies_site sites rfl]
  · intro x hx
    obtain ⟨t', ht', rfl⟩ := List.mem_map.mp hx
    have ht'prop := (List.mem_filter.mp ht').2
    have ht'k : t'.2.2 = t.2.2 := by
      simp only [decide_eq_true_eq] at ht'prop
      exact ht'prop.1
    rw [tileSpecies_site sites ht'k, tileSpecies_site sites rfl]

/-- The punctured sheet yields exactly one Vacancy record: the removed
atom's species at the removed atom's position. -/
theorem erased_vacancies (hM : 3 ≤ M) :
    vacancies (vacancyInput a b sites M N tolSq bondSq sizeLimit inside chemOK t0) =
      [(tileSpecies sites t0, tilePos a b sites t0)] := by
  unfold vacancies
  simp only [vacancyInput_points, vacancyInput_atoms, vacancyInput_tolSq]
  show ((tileIndices M N sites.length).map (tilePoint a b sites)).filterMap _ = _
  rw [List.filterMap_map]
  apply filterMap_eq_singleton_of_unique _ _ t0 _ (tileIndices_nodup M N sites.length) ht0
  · show (match ptMatch _ tolSq (tilePoint a b sites t0) with
      | some _ => none
      | none => some (expectedAt _ (tilePoint a b sites t0), (tilePoint a b sites t0).pos)) = _
    rw [erased_ptMatch_t0 a b sites M N tolSq t0 htol hsep ht0]
    show some (expectedAt (vacancyInput a b sites M N tolSq bondSq sizeLimit inside chemOK
      t0) (tilePoint a b sites t0), tilePos a b sites t0) = _
    rw [erased_expected a b sites M N tolSq bondSq sizeLimit inside chemOK t0 htol hsep
      ht0 hM ht0]
  · intro t ht hne
    show (match ptMatch _ tolSq (tilePoint a b sites t) with
      | some _ => none
      | none => some (expectedAt _ (tilePoint a b sites t), (tilePoint a b sites t).pos)) = _
    obtain ⟨j, hj, hgj, hmatch⟩ :=
      erased_ptMatch_get a b sites M N tolSq t0 htol hsep ht0 ht hne
    rw [hmatch]

/-- The punctured sheet yields no Substitution record. -/
theorem erased_substitutions (hM : 3 ≤ M) :
    substitutions (vacancyInput a b sites M N tolSq bondSq sizeLimit inside chemOK t0) =
      [] := by
  unfold substitutions
  apply filterMap_eq_nil_of_none
  intro j hjr
  have hj : j < ((tileIndices M N sites.length).erase t0).length := by
    have := List.mem_range.mp hjr
    rw [vacancyInput_atoms, List.length_map] at this
    exact this
  have htj : ((tileIndices M N sites.length).erase t0).getD j (0, 0, 0) ∈
      (tileIndices M N sites.length).erase t0 := getD_mem_of_lt _ j (0, 0, 0) hj
  have htjm : ((tileIndices M N sites.length).erase t0).getD j (0, 0, 0) ∈
      tileIndices M N sites.length := List.erase_subset _ _ htj
  unfold subRecOf
  rw [erased_assignedTo a b sites M N tolSq bondSq sizeLimit inside chemOK t0 htol hsep
    ht0 hj]
  dsimp only
  rw [erased_expected a b sites M N tolSq bondSq sizeLimit inside chemOK t0 htol hsep
    ht0 hM htjm]
  have hspec : ((vacancyInput a b sites M N tolSq bondSq sizeLimit inside chemOK
      t0).atoms.getD j atomDefault).species =
      tileSpecies sites (((tileIndices M N sites.length).erase t0).getD j (0, 0, 0)) := by
    rw [vacancyInput_atoms, getD_map _ _ j hj _ (0, 0, 0)]
    rfl
  rw [hspec, if_pos rfl]

end VacancyScenario

/-- C2: Modelled from the spec: for every pristine 2D sheet tiled at least
4×4 from its unit cell (with positionally separated tiles and a nonnegative
tolerance), deleting the atom at index `d` and classifying yields exactly
one Vacancy record whose species and position match the removed atom, and
zero substitutions, interstitials, adsorbates and unknowns; instead
changing that atom's species to a different `newSp` yields exactly one
Substitution record carrying the index `d`, the original species and
`newSp`, and zero other defect records. -/
theorem c2_vacancy_and_substitution (a b : Vec3) (sites : List (ℕ × Vec3)) (M N : ℕ)
    (tolSq bondSq : ℚ) (sizeLimit : ℕ) (inside : Vec3 → Bool) (chemOK : List ℕ → Bool)
    (d newSp : ℕ)
    (htol : 0 ≤ tolSq) (hsep : TilesSeparated a b sites M N tolSq)
    (hM : 4 ≤ M) (hN : 4 ≤ N)
    (hd : d < (sheetAtoms a b sites M N).length)
    (hnew : newSp ≠ ((sheetAtoms a b sites M N).getD d atomDefault).species) :
    ((vacancyScenario a b sites M N tolSq bondSq sizeLimit inside chemOK
        ((tileIndices M N sites.length).getD d (0, 0, 0))).vacancies =
      [(((sheetAtoms a b sites M N).getD d atomDefault).species,
        ((sheetAtoms a b sites M N).getD d atomDefault).pos)] ∧
     (vacancyScenario a b sites M N tolSq bondSq sizeLimit inside chemOK
        ((tileIndices M N sites.length).getD d (0, 0, 0))).substitutions = [] ∧
     (vacancyScenario a b sites M N tolSq bondSq sizeLimit inside chemOK
        ((tileIndices M N sites.length).getD d (0, 0, 0))).interstitials = [] ∧
     (vacancyScenario a b sites M N tolSq bondSq sizeLimit inside chemOK
        ((tileIndices M N sites.length).getD d (0, 0, 0))).adsorbates = [] ∧
     (vacancyScenario a b sites M N tolSq bondSq sizeLimit inside chemOK
        ((tileIndices M N sites.length).getD d (0, 0, 0))).unknowns = []) ∧
    ((substScenario a b sites M N tolSq bondSq sizeLimit inside chemOK
        ((tileIndices M N sites.length).getD d (0, 0, 0)) newSp).substitutions =
      [(d, ((sheetAtoms a b sites M N).getD d atomDefault).species, newSp)] ∧
     (substScenario a b sites M N tolSq bondSq sizeLimit inside chemOK
        ((tileIndices M N sites.length).getD d (0, 0, 0)) newSp).vacancies = [] ∧
     (substScenario a b sites M N tolSq bondSq sizeLimit inside chemOK
        ((tileIndices M N sites.length).getD d (0, 0, 0)) newSp).interstitials = [] ∧
     (substScenario a b sites M N tolSq bondSq sizeLimit inside chemOK
        ((tileIndices M N sites.length).getD d (0, 0, 0)) newSp).adsorbates = [] ∧
     (substScenario a b sites M N tolSq bondSq sizeLimit inside chemOK
        ((tileIndices M N sites.length).getD d (0, 0, 0)) newSp).unknowns = []) := by
  have hd' : d < (tileIndices M N sites.length).length := by
    rw [sheetAtoms, List.length_map] at hd
    exact hd
  have ht0 : (tileIndices M N sites.length).getD d (0, 0, 0) ∈ tileIndices M N sites.length :=
    getD_mem_of_lt _ d (0, 0, 0) hd'
  have hM3 : 3 ≤ M := by omega
  have hsp : ((sheetAtoms a b sites M N).getD d atomDefault).species =
      tileSpecies sites ((tileIndices M N sites.length).getD d (0, 0, 0)) := by
    unfold sheetAtoms
    rw [getD_map _ _ d hd' atomDefault (0, 0, 0)]
    rfl
  have hpp : ((sheetAtoms a b sites M N).getD d atomDefault).pos =
      tilePos a b sites ((tileIndices M N sites.length).getD d (0, 0, 0)) := by
    unfold sheetAtoms
    rw [getD_map _ _ d hd' atomDefault (0, 0, 0)]
    rfl
  have hnew' : newSp ≠ tileSpecies sites ((tileIndices M N sites.length).getD d (0, 0, 0)) := by
    rw [← hsp]
    exact hnew
  have hrestV := rest_empty_of_unassigned_nil
    (vacancyInput a b sites M N tolSq bondSq sizeLimit inside chemOK
      ((tileIndices M N sites.length).getD d (0, 0, 0)))
    (erased_unassigned a b sites M N tolSq bondSq sizeLimit inside chemOK
      ((tileIndices M N sites.length).getD d (0, 0, 0)) htol hsep ht0)
  have hf : ∀ t ∈ tileIndices M N sites.length,
      (substAtom a b sites ((tileIndices M N sites.length).getD d (0, 0, 0)) newSp t).pos =
        tilePos a b sites t := by
    intro t _
    unfold substAtom
    split <;> rfl
  have hextra : ∀ x ∈ ([] : List AtomRec), ∀ t ∈ tileIndices M N sites.length,
      ¬ (distSq x.pos (tilePos a b sites t) ≤ tolSq) :=
    fun x hx => absurd hx (List.not_mem_nil x)
  have hinp : substScenario a b sites M N tolSq bondSq sizeLimit inside chemOK
      ((tileIndices M N sites.length).getD d (0, 0, 0)) newSp =
      classify_region (tiledInput a b sites M N tolSq bondSq sizeLimit inside chemOK
        (substAtom a b sites ((tileIndices M N sites.length).getD d (0, 0, 0)) newSp) []) := by
    unfold substScenario tiledInput sheetSubst
    rw [List.append_nil]
  have hrestS := tiled_no_extra a b sites M N tolSq bondSq sizeLimit inside chemOK
    (substAtom a b sites ((tileIndices M N sites.length).getD d (0, 0, 0)) newSp)
    htol hsep hf
  refine ⟨⟨?_, ?_, ?_, ?_, ?_⟩, ?_, ?_, ?_, ?_, ?_⟩
  · show vacancies (vacancyInput a b sites M N tolSq bondSq sizeLimit inside chemOK
      ((tileIndices M N sites.length).getD d (0, 0, 0))) = _
    rw [erased_vacancies a b sites M N tolSq bondSq sizeLimit inside chemOK
      ((tileIndices M N sites.length).getD d (0, 0, 0)) htol hsep ht0 hM3, hsp, hpp]
  · exact erased_substitutions a b sites M N tolSq bondSq sizeLimit inside chemOK
      ((tileIndices M N sites.length).getD d (0, 0, 0)) htol hsep ht0 hM3
  · exact hrestV.1
  · exact hrestV.2.2.1
  · exact hrestV.2.2.2
  · rw [hinp]
    show substitutions (tiledInput a b sites M N tolSq bondSq sizeLimit inside chemOK
      (substAtom a b sites ((tileIndices M N sites.length).getD d (0, 0, 0)) newSp) []) = _
    rw [subst_substitutions a b sites M N tolSq bondSq sizeLimit inside chemOK d newSp
      htol hsep hM3 hd' hnew', hsp]
  · rw [hinp]
    exact tiled_vacancies a b sites M N tolSq bondSq sizeLimit inside chemOK
      (substAtom a b sites ((tileIndices M N sites.length).getD d (0, 0, 0)) newSp) []
      htol hsep hf hextra
  · rw [hinp]
    exact hrestS.2.1
  · rw [hinp]
    exact hrestS.2.2.2.1
  · rw [hinp]
    exact hrestS.2.2.2.2

theorem c2_vacancy_and_substitution_witness :
    ((0 : ℚ) ≤ 0) ∧
    (vacancyScenario ((10 : ℚ), 0, 0) ((0 : ℚ), 10, 0) [(6, ((0 : ℚ), (0 : ℚ), (0 : ℚ)))]
        4 4 0 1 100 (fun _ => false) (fun _ => true)
        ((tileIndices 4 4 ([(6, ((0 : ℚ), (0 : ℚ), (0 : ℚ)))] : List (ℕ × Vec3)).length).getD
          5 (0, 0, 0))).vacancies =
      [(((sheetAtoms ((10 : ℚ), 0, 0) ((0 : ℚ), 10, 0)
            [(6, ((0 : ℚ), (0 : ℚ), (0 : ℚ)))] 4 4).getD 5 atomDefault).species,
        ((sheetAtoms ((10 : ℚ), 0, 0) ((0 : ℚ), 10, 0)
            [(6, ((0 : ℚ), (0 : ℚ), (0 : ℚ)))] 4 4).getD 5 atomDefault).pos)] ∧
    (substScenario ((10 : ℚ), 0, 0) ((0 : ℚ), 10, 0) [(6, ((0 : ℚ), (0 : ℚ), (0 : ℚ)))]
        4 4 0 1 100 (fun _ => false) (fun _ => true)
        ((tileIndices 4 4 ([(6, ((0 : ℚ), (0 : ℚ), (0 : ℚ)))] : List (ℕ × Vec3)).length).getD
          5 (0, 0, 0)) 7).substitutions =
      [(5, ((sheetAtoms ((10 : ℚ), 0, 0) ((0 : ℚ), 10, 0)
            [(6, ((0 : ℚ), (0 : ℚ), (0 : ℚ)))] 4 4).getD 5 atomDefault).species, 7)] :=
  ⟨le_refl 0,
    (c2_vacancy_and_substitution ((10 : ℚ), 0, 0) ((0 : ℚ), 10, 0)
      [(6, ((0 : ℚ), (0 : ℚ), (0 : ℚ)))] 4 4 0 1 100 (fun _ => false) (fun _ => true) 5 7
      (le_refl 0) (by unfold TilesSeparated; decide) (by decide) (by decide) (by decide)
      (by decide)).1.1,
    (c2_vacancy_and_substitution ((10 : ℚ), 0, 0) ((0 : ℚ), 10, 0)
      [(6, ((0 : ℚ), (0 : ℚ), (0 : ℚ)))] 4 4 0 1 100 (fun _ => false) (fun _ => true) 5 7
      (le_refl 0) (by unfold TilesSeparated; decide) (by decide) (by decide) (by decide)
      (by decide)).2.1⟩

/-- C4 (counterexample): a three-atom chain `0 —(far)— 1` with atom `2`
bridging them, no lattice points and everything outside the containment
query forms a single adsorbate component whose breadth-first traversal
from atom `0` reaches atom `2` before atom `1`; the emitted adsorbate
index list `[0, 2, 1]` is not in ascending atom-index order. -/
theorem c4_adsorbate_order_counterexample :
    (classify_region ⟨[⟨1, ((0 : ℚ), 0, 0)⟩, ⟨1, ((2 : ℚ), 0, 0)⟩, ⟨1, ((1 : ℚ), 0, 0)⟩],
        [], 0, 1, 3, fun _ => false, fun _ => true⟩).adsorbates = [0, 2, 1] ∧
    ¬ ((classify_region ⟨[⟨1, ((0 : ℚ), 0, 0)⟩, ⟨1, ((2 : ℚ), 0, 0)⟩, ⟨1, ((1 : ℚ), 0, 0)⟩],
        [], 0, 1, 3, fun _ => false, fun _ => true⟩).adsorbates.Pairwise (· ≤ ·)) :=
  ⟨by decide, by decide⟩

theorem subRecOf_fst (inp : RegionInput) (j : ℕ) (r : ℕ × ℕ × ℕ)
    (h : subRecOf inp j = some r) : r.1 = j := by
  cases ha : assignedTo inp j with
  | none => simp [subRecOf, ha] at h
  | some pt =>
    simp only [subRecOf, ha] at h
    split at h
    · cases h
    · cases h
      rfl

/-- C4: Modelled from the spec: for every classifier input the emitted
substitution records (by their atom index), the interstitial list, the
unassigned list and the unknown list are in strictly ascending atom-index
order; the adsorbate index list is emitted in first-encountered
component-traversal order and (as the counterexample shows) need not be
ascending. -/
theorem c4_index_lists_sorted (inp : RegionInput) :
    ((substitutions inp).map Prod.fst).Pairwise (· < ·) ∧
    (interstitials inp).Pairwise (· < ·) ∧
    (unassigned inp).Pairwise (· < ·) ∧
    (unknowns inp).Pairwise (· < ·) := by
  have hun : (unassigned inp).Pairwise (· < ·) := by
    unfold unassigned
    exact (List.pairwise_lt_range _).filter _
  refine ⟨?_, ?_, hun, ?_⟩
  · unfold substitutions
    rw [List.pairwise_map, List.pairwise_filterMap]
    refine (List.pairwise_lt_range _).imp ?_
    intro i j hij x hx y hy
    rw [subRecOf_fst inp i x hx, subRecOf_fst inp j y hy]
    exact hij
  · unfold interstitials
    exact hun.filter _
  · unfold unknowns outsideAtoms
    exact (hun.filter _).filter _

end Systax
